import Mathlib

/-!
Verification of the DeepFind ingestion-and-retrieval pipeline
(src/parse.py and src/embeddings.py).

Strings are modelled as lists of characters.  All functions below are
translated from the Python source; functions whose name carries the prefix
spec (such as specParagraphs) instead follow the specification's words and
are compared with the source-derived functions in refinement theorems.
Recursions that are not structural in the source are given an explicit fuel
argument (always instantiated with the length of the scanned list, which is
an upper bound for the number of steps), so that every definition is
executable by kernel reduction.
-/

namespace DeepFind

/-- Whitespace class of Python's regex shorthand for whitespace and of
str.strip with no arguments, restricted to the ASCII range (the programs in
this repository only rely on the ASCII whitespace characters). -/
def isSpace (c : Char) : Bool :=
  c == ' ' || c == '\t' || c == '\n' || c == '\r' || c == '\x0b' || c == '\x0c'

/-! ### Paragraph splitting: re.split applied to newline-whitespace-newline

The pattern used at src/parse.py line 132 is a newline, a greedy run of
whitespace, then a newline.  wsStarNl models matching the tail of the
pattern (greedy whitespace run with backtracking, then a final newline)
against the head of a list: it returns the number of characters consumed.
Greediness is modelled by preferring the branch that keeps consuming
whitespace and only falling back to using the current newline as the final
newline of the pattern when no later newline is reachable. -/
def wsStarNl : List Char → Option Nat
  | [] => none
  | c :: rest =>
    if c = '\n' then
      match wsStarNl rest with
      | some k => some (k + 1)
      | none => some 1
    else if isSpace c then (wsStarNl rest).map (· + 1)
    else none

/-- Length of the leftmost-anchored match of the regex (newline, greedy
whitespace, newline) at the head of the list, if any. -/
def matchNlWsNl : List Char → Option Nat
  | [] => none
  | c :: rest => if c = '\n' then (wsStarNl rest).map (· + 1) else none

/-- One pass of re.split for the blank-line pattern: scan left to right,
emit the accumulated segment at each non-overlapping leftmost match and
resume scanning after the match.  The accumulator holds the current segment
reversed.  Fuel bounds the recursion; it is always run with fuel at least
the length of the list. -/
def reSplitGoF : Nat → List Char → List Char → List (List Char)
  | _, [], cur => [cur.reverse]
  | 0, _ :: _, cur => [cur.reverse]
  | fuel + 1, c :: rest, cur =>
    match matchNlWsNl (c :: rest) with
    | some L => cur.reverse :: reSplitGoF fuel ((c :: rest).drop L) []
    | none => reSplitGoF fuel rest (c :: cur)

/-- re.split of the blank-line pattern over a string (with accumulator). -/
def reSplitGo (s cur : List Char) : List (List Char) := reSplitGoF s.length s cur

/-- Python str.strip with no arguments: remove leading and trailing
whitespace. -/
def strip (l : List Char) : List Char :=
  ((l.dropWhile isSpace).reverse.dropWhile isSpace).reverse

/-- extractParagraphs from src/parse.py lines 124-133: split on the
blank-line regex, strip every piece, and keep only pieces that are nonempty
after stripping. -/
def extractParagraphs (s : List Char) : List (List Char) :=
  ((reSplitGo s []).map strip).filter (fun p => !p.isEmpty)

/-! ### Paragraph splitting as the specification words it

Modelled from the spec: split the text on any maximal run of whitespace
that contains at least one blank line (two or more newlines, optionally
with interleaved whitespace), trim each resulting segment, and discard
segments that are empty after trimming. -/
def specSplitGoF : Nat → List Char → List Char → List (List Char)
  | _, [], cur => [cur.reverse]
  | 0, _ :: _, cur => [cur.reverse]
  | fuel + 1, c :: rest, cur =>
    if isSpace c then
      if 2 ≤ ((c :: rest).takeWhile isSpace).count '\n' then
        cur.reverse :: specSplitGoF fuel ((c :: rest).dropWhile isSpace) []
      else
        specSplitGoF fuel ((c :: rest).dropWhile isSpace)
          (((c :: rest).takeWhile isSpace).reverse ++ cur)
    else specSplitGoF fuel rest (c :: cur)

/-- Modelled from the spec: the whitespace-run splitter (with accumulator). -/
def specSplitGo (s cur : List Char) : List (List Char) := specSplitGoF s.length s cur

/-- Modelled from the spec: paragraphs as described in the specification's
words (section 4.3), to be compared with extractParagraphs. -/
def specParagraphs (s : List Char) : List (List Char) :=
  ((specSplitGo s []).map strip).filter (fun p => !p.isEmpty)

/-- Joining a list of paragraphs with a blank-line separator (used to state
the idempotence property of extractParagraphs). -/
def joinBlank : List (List Char) → List Char
  | [] => []
  | [p] => p
  | p :: q :: rest => p ++ '\n' :: '\n' :: joinBlank (q :: rest)

/-- A blank line occurs inside the list: two newlines separated only by
whitespace. -/
def BlankIn (l : List Char) : Prop :=
  ∃ u v w, (∀ c ∈ v, isSpace c = true) ∧ l = u ++ '\n' :: v ++ '\n' :: w

/-! ### Markdown stripping (src/parse.py lines 88-102)

The .md extractor applies three re.sub passes with lazy groups: double
asterisk pairs, then single asterisk pairs, then backtick pairs, each
replaced by the group captured between the markers.  findClose models the
lazy group: it consumes the shortest run of non-newline characters after
which the closing marker is a prefix, returning the group and the remainder
after the closing marker.  rsubF models re.sub: scan left to right, replace
each leftmost match by its group, and resume after the match. -/
def findClose (cl : List Char) : List Char → Option (List Char × List Char)
  | [] => if cl.isPrefixOf ([] : List Char) then some ([], []) else none
  | c :: rest =>
    if cl.isPrefixOf (c :: rest) then some ([], (c :: rest).drop cl.length)
    else if c = '\n' then none
    else (findClose cl rest).map (fun gr => (c :: gr.1, gr.2))

/-- re.sub for a pattern of the form opening marker, lazy non-newline
group, closing marker, replacing every match by the captured group.  Fuel
bounds the recursion; it is always run with fuel at least the length of the
list. -/
def rsubF (op cl : List Char) : Nat → List Char → List Char
  | _, [] => []
  | 0, s => s
  | fuel + 1, c :: rest =>
    if op.isPrefixOf (c :: rest) then
      match findClose cl ((c :: rest).drop op.length) with
      | some gr => gr.1 ++ rsubF op cl fuel gr.2
      | none => c :: rsubF op cl fuel rest
    else c :: rsubF op cl fuel rest

/-- re.sub for one marker pair over a string. -/
def rsub (op cl s : List Char) : List Char := rsubF op cl s.length s

/-- The Markdown stripping of parseMD: bold pairs, then italic pairs, then
inline-code pairs. -/
def stripMD (s : List Char) : List Char :=
  rsub ['`'] ['`'] (rsub ['*'] ['*'] (rsub ['*', '*'] ['*', '*'] s))

/-! ### Directory walking (src/parse.py lines 8-24) -/

mutual

/-- A filesystem tree entry: a plain file or a directory with children. -/
inductive Entry where
  | file (name : List Char)
  | dir (name : List Char) (children : EntryList)

/-- A list of filesystem entries (the children of a directory). -/
inductive EntryList where
  | nil
  | cons (e : Entry) (es : EntryList)

end

/-- The entries of an EntryList as an ordinary list. -/
def EntryList.toList : EntryList → List Entry
  | .nil => []
  | .cons e es => e :: EntryList.toList es

mutual

/-- Number of nodes of a filesystem entry, used as an induction measure. -/
def entrySize : Entry → Nat
  | .file _ => 1
  | .dir _ cs => 1 + entryListSize cs

/-- Number of nodes of a list of filesystem entries, plus one. -/
def entryListSize : EntryList → Nat
  | .nil => 1
  | .cons e es => entrySize e + entryListSize es

end

/-- The .pdf extension. -/
def pdfExt : List Char := ['.', 'p', 'd', 'f']

/-- The .docx extension. -/
def docxExt : List Char := ['.', 'd', 'o', 'c', 'x']

/-- The .txt extension. -/
def txtExt : List Char := ['.', 't', 'x', 't']

/-- The .md extension. -/
def mdExt : List Char := ['.', 'm', 'd']

/-- The inclusion test of parseDir (line 22): the name ends with one of the
four supported extensions (case-sensitive suffix match). -/
def supportedExt (name : List Char) : Bool :=
  pdfExt.isSuffixOf name || docxExt.isSuffixOf name ||
    txtExt.isSuffixOf name || mdExt.isSuffixOf name

/-- os.path.join of a directory path and an entry name. -/
def joinPath (root name : List Char) : List Char := root ++ '/' :: name

/-- The hidden-directory test of parseDir (line 20): the name starts with a
dot. -/
def startsWithDot : List Char → Bool
  | '.' :: _ => true
  | _ => false

/-- The supported files directly inside a directory, joined to its path. -/
def filesAt (root : List Char) : EntryList → List (List Char)
  | .nil => []
  | .cons (.file n) es =>
    if supportedExt n then joinPath root n :: filesAt root es else filesAt root es
  | .cons (.dir _ _) es => filesAt root es

mutual

/-- Recursive part of os.walk for one entry: descend into the entry if it
is a directory whose name does not start with a dot, collecting the
supported files of each visited directory. -/
def walkEntry (root : List Char) : Entry → List (List Char)
  | .file _ => []
  | .dir n cs =>
    if startsWithDot n then []
    else filesAt (joinPath root n) cs ++ walkList (joinPath root n) cs

/-- Recursive part of os.walk for the children of a directory, in order. -/
def walkList (root : List Char) : EntryList → List (List Char)
  | .nil => []
  | .cons e es => walkEntry root e ++ walkList root es

end

/-- parseDir from src/parse.py lines 8-24: walk the tree rooted at root
(whose children are es), skipping hidden subdirectories, and return the
paths of all files with a supported extension in traversal order. -/
def parseDir (root : List Char) (es : EntryList) : List (List Char) :=
  filesAt root es ++ walkList root es

/-- Modelled from the spec: a path is reachable by a recursive traversal
that never descends into a subdirectory whose name starts with a dot, and
names a file with a supported extension. -/
inductive Reach : List Char → EntryList → List Char → Prop where
  | here (root : List Char) (es : EntryList) (n : List Char) :
      Entry.file n ∈ es.toList → supportedExt n = true →
      Reach root es (joinPath root n)
  | deeper (root : List Char) (es : EntryList) (d : List Char)
      (cs : EntryList) (p : List Char) :
      Entry.dir d cs ∈ es.toList → startsWithDot d = false →
      Reach (joinPath root d) cs p → Reach root es p

/-! ### File-type dispatch (src/parse.py lines 27-102)

The binary decoders (fitz, python-docx) and the filesystem are external
collaborators; they are modelled as functions supplied in an environment,
each returning either a library error message or its payload. -/

structure ExtractEnv where
  pdfPages : List Char → Except (List Char) (List (List Char))
  docxParas : List Char → Except (List Char) (List (List Char))
  readFile : List Char → Except (List Char) (List Char)

/-- An error escaping parseFile: either the ValueError raised for an
unsupported extension (line 44), or an error of an extraction library. -/
inductive ParseErr where
  | unsupported (msg : List Char)
  | extractorFail (msg : List Char)
deriving DecidableEq

/-- The message prefix of the unsupported-file-type ValueError. -/
def unsupportedPrefix : List Char :=
  ['U', 'n', 's', 'u', 'p', 'p', 'o', 'r', 't', 'e', 'd', ' ',
   'f', 'i', 'l', 'e', ' ', 't', 'y', 'p', 'e', ':', ' ']

/-- parsePDF: concatenate the text of every page in order. -/
def parsePDF (env : ExtractEnv) (file : List Char) : Except (List Char) (List Char) :=
  (env.pdfPages file).map fun pages => pages.flatten

/-- parseDOCX: concatenate every paragraph's text, each followed by a
newline. -/
def parseDOCX (env : ExtractEnv) (file : List Char) : Except (List Char) (List Char) :=
  (env.docxParas file).map fun ps => (ps.map (· ++ ['\n'])).flatten

/-- parseTXT: read the file verbatim. -/
def parseTXT (env : ExtractEnv) (file : List Char) : Except (List Char) (List Char) :=
  env.readFile file

/-- parseMD: read the file, then strip Markdown emphasis markers. -/
def parseMD (env : ExtractEnv) (file : List Char) : Except (List Char) (List Char) :=
  (env.readFile file).map stripMD

/-- parseFile from src/parse.py lines 27-44: dispatch on the extension, or
raise the unsupported-file-type ValueError naming the path. -/
def parseFile (env : ExtractEnv) (file : List Char) : Except ParseErr (List Char) :=
  if pdfExt.isSuffixOf file then (parsePDF env file).mapError ParseErr.extractorFail
  else if docxExt.isSuffixOf file then (parseDOCX env file).mapError ParseErr.extractorFail
  else if txtExt.isSuffixOf file then (parseTXT env file).mapError ParseErr.extractorFail
  else if mdExt.isSuffixOf file then (parseMD env file).mapError ParseErr.extractorFail
  else .error (.unsupported (unsupportedPrefix ++ file))

/-! ### The embeddings store adapter (src/embeddings.py)

The Milvus client and the sentence-embedding model are external
collaborators.  The client is modelled by the answer it gives to a search
request; the calls the adapter issues to the store are recorded as a trace
of store operations, so that what the code sends to the store is itself the
subject of theorems. -/

/-- The collection name used throughout src/embeddings.py. -/
def embCollection : List Char :=
  ['e', 'm', 'b', 'e', 'd', 'd', 'i', 'n', 'g', 's']

/-- The name of the vector field. -/
def embeddingField : List Char :=
  ['e', 'm', 'b', 'e', 'd', 'd', 'i', 'n', 'g']

/-- The name of the filename field. -/
def fileNameField : List Char :=
  ['f', 'i', 'l', 'e', '_', 'n', 'a', 'm', 'e']

/-- The L2 metric name. -/
def l2Metric : List Char := ['L', '2']

/-- The parameters of a client.search call as issued by search_embeddings
(src/embeddings.py lines 123-130). -/
structure SearchRequest where
  collectionName : List Char
  annsField : List Char
  limit : Nat
  metricType : List Char
  outputFields : List (List Char)
deriving DecidableEq

/-- A store operation issued to the Milvus client. -/
inductive StoreOp where
  | loadCollection (name : List Char)
  | insert (collection : List Char) (rows : List (List Char × List Float))
  | flush (collection : List Char)
  | search (req : SearchRequest)

/-- The external Milvus client, modelled by the file_name entities of the
hits it returns for a search request and a query vector. -/
structure MilvusClient where
  searchResult : SearchRequest → List Float → List (List Char)

/-- The Embeddings object of src/embeddings.py: an optional store client
(None when no db_path was configured) and the sentence-embedding model,
modelled as a batch encoder that may fail with a library error. -/
structure Embeddings where
  db_client : Option MilvusClient
  encode : List (List Char) → Except (List Char) (List (List Float))

/-- get_embeddings (lines 76-87): encode a batch of texts. -/
def get_embeddings (e : Embeddings) (texts : List (List Char)) :
    Except (List Char) (List (List Float)) :=
  e.encode texts

/-- save_embeddings (lines 90-102), as the trace of store operations it
issues: nothing when no client is configured, otherwise load, one insert
holding one row per vector all sharing the file name, then flush. -/
def save_embeddings (e : Embeddings) (embeddings : List (List Float))
    (file_name collection_name : List Char) : List StoreOp :=
  match e.db_client with
  | some _ =>
    [.loadCollection collection_name,
     .insert collection_name (embeddings.map fun embedding => (file_name, embedding)),
     .flush collection_name]
  | none => []

/-- The search request built by search_embeddings (lines 123-130): the
result limit is the literal 5, the search runs over the embedding field
under the L2 metric, and only the file_name field is requested. -/
def searchRequestOf (collection_name : List Char) : SearchRequest :=
  { collectionName := collection_name
    annsField := embeddingField
    limit := 5
    metricType := l2Metric
    outputFields := [fileNameField] }

/-- search_embeddings (lines 105-136): with a configured client, load the
collection, embed the query, issue the search request, and return the hit
file names deduplicated (the Python code passes them through a set); with
no client, return the empty list.  The result carries the trace of store
operations next to the returned names. -/
def search_embeddings (e : Embeddings) (query : List Char) (top_k : Nat)
    (collection_name : List Char) :
    Except (List Char) (List StoreOp × List (List Char)) :=
  match e.db_client with
  | some client =>
    (get_embeddings e [query]).map fun qvs =>
      ([.loadCollection collection_name, .search (searchRequestOf collection_name)],
        (client.searchResult (searchRequestOf collection_name) (qvs.headD [])).dedup)
  | none => .ok ([], [])

/-! ### The ingestion loop (src/parse.py lines 105-120) -/

/-- An error escaping the ingestion loop: a parseFile error or an embedding
failure. -/
inductive IngestErr where
  | parse (e : ParseErr)
  | embed (msg : List Char)
deriving DecidableEq

/-- The body of the embedFiles loop for one file: extract the text, segment
it into paragraphs, embed all paragraphs in one batch call, and save the
vectors under the file's path, returning the store trace. -/
def perFile (env : ExtractEnv) (e : Embeddings) (file : List Char) :
    Except IngestErr (List StoreOp) := do
  let text ← (parseFile env file).mapError IngestErr.parse
  let paragraphs := extractParagraphs text
  let embs ← (get_embeddings e paragraphs).mapError IngestErr.embed
  pure (save_embeddings e embs file embCollection)

/-- embedFiles from src/parse.py lines 105-120: run the loop body (perFile)
on each file in list order, collecting the store traces; any uncaught
extraction or embedding error aborts the loop and the remaining files. -/
def embedFiles (env : ExtractEnv) (e : Embeddings) :
    List (List Char) → Except IngestErr (List StoreOp)
  | [] => .ok []
  | file :: rest => do
    let tr ← perFile env e file
    let trs ← embedFiles env e rest
    pure (tr ++ trs)

/-! ## Helper lemmas about whitespace scanning -/

theorem isSpace_nl : isSpace '\n' = true := rfl

theorem ne_nl_of_not_isSpace {c : Char} (h : isSpace c = false) : c ≠ '\n' := by
  intro e
  subst e
  exact absurd h (by decide)

theorem dropWhile_length_le {α : Type} (p : α → Bool) (l : List α) :
    (l.dropWhile p).length ≤ l.length := by
  induction l with
  | nil => simp
  | cons c rest ih =>
    by_cases hc : p c
    · rw [List.dropWhile_cons_of_pos hc]
      exact Nat.le_trans ih (Nat.le_succ _)
    · rw [List.dropWhile_cons_of_neg hc]

theorem takeWhile_append_stop {α : Type} {p : α → Bool} {a b : List α}
    (h : ∃ x ∈ a, p x = false) : (a ++ b).takeWhile p = a.takeWhile p := by
  induction a with
  | nil =>
    rcases h with ⟨x, hx, _⟩
    exact absurd hx (by simp)
  | cons c a' ih =>
    by_cases hc : p c
    · rcases h with ⟨x, hx, hxf⟩
      rcases List.mem_cons.mp hx with rfl | hx'
      · exact absurd hc (by simp [hxf])
      · simp [List.takeWhile_cons_of_pos hc, ih ⟨x, hx', hxf⟩]
    · simp [List.takeWhile_cons_of_neg hc]

theorem wsStarNl_pos {l : List Char} {k : Nat} (h : wsStarNl l = some k) : 1 ≤ k := by
  induction l generalizing k with
  | nil => simp [wsStarNl] at h
  | cons c rest ih =>
    by_cases hc : c = '\n'
    · simp only [wsStarNl, if_pos hc] at h
      split at h <;> (simp only [Option.some.injEq] at h; omega)
    · by_cases hs : isSpace c
      · simp only [wsStarNl, if_neg hc, if_pos hs, Option.map_eq_some'] at h
        rcases h with ⟨k', _, rfl⟩
        omega
      · simp [wsStarNl, hc, hs] at h

theorem wsStarNl_none_of_no_nl {l : List Char}
    (h : '\n' ∉ l.takeWhile isSpace) : wsStarNl l = none := by
  induction l with
  | nil => rfl
  | cons c rest ih =>
    by_cases hc : c = '\n'
    · subst hc
      rw [List.takeWhile_cons_of_pos (by decide : isSpace '\n' = true)] at h
      exact absurd (List.mem_cons_self _ _) h
    · by_cases hs : isSpace c
      · rw [List.takeWhile_cons_of_pos hs] at h
        simp only [wsStarNl, if_neg hc, if_pos hs]
        rw [ih (fun hm => h (List.mem_cons_of_mem _ hm))]
        rfl
      · simp [wsStarNl, hc, hs]

theorem wsStarNl_no_nl_of_none {l : List Char}
    (h : wsStarNl l = none) : '\n' ∉ l.takeWhile isSpace := by
  induction l with
  | nil => simp
  | cons c rest ih =>
    by_cases hc : c = '\n'
    · exfalso
      simp only [wsStarNl, if_pos hc] at h
      split at h <;> simp at h
    · by_cases hs : isSpace c
      · simp only [wsStarNl, if_neg hc, if_pos hs, Option.map_eq_none'] at h
        rw [List.takeWhile_cons_of_pos hs]
        intro hm
        rcases List.mem_cons.mp hm with e | hm'
        · exact hc e.symm
        · exact ih h hm'
      · rw [List.takeWhile_cons_of_neg hs]
        simp

theorem wsStarNl_drop {l : List Char} {k : Nat} (h : wsStarNl l = some k) :
    '\n' ∉ (l.drop k).takeWhile isSpace := by
  induction l generalizing k with
  | nil => simp [wsStarNl] at h
  | cons c rest ih =>
    by_cases hc : c = '\n'
    · simp only [wsStarNl, if_pos hc] at h
      rcases hw : wsStarNl rest with _ | k'
      · rw [hw] at h
        simp only [Option.some.injEq] at h
        subst h
        simpa using wsStarNl_no_nl_of_none hw
      · rw [hw] at h
        simp only [Option.some.injEq] at h
        subst h
        simpa using ih hw
    · by_cases hs : isSpace c
      · simp only [wsStarNl, if_neg hc, if_pos hs, Option.map_eq_some'] at h
        rcases h with ⟨k', hk', rfl⟩
        simpa using ih hk'
      · simp [wsStarNl, hc, hs] at h

/-- The greedy whitespace run with a final newline: matching after the first
newline of a whitespace run consumes exactly up to the last newline of the
run. -/
theorem wsStarNl_cons_nl (rest : List Char) :
    wsStarNl ('\n' :: rest) =
      match wsStarNl rest with
      | some k => some (k + 1)
      | none => some 1 := rfl

theorem wsStarNl_cons_ws {c : Char} {rest : List Char} (hc : c ≠ '\n')
    (hs : isSpace c = true) : wsStarNl (c :: rest) = (wsStarNl rest).map (· + 1) := by
  simp [wsStarNl, hc, hs]

theorem wsStarNl_last {p q rest' : List Char}
    (hp : ∀ c ∈ p, isSpace c = true) (hq : ∀ c ∈ q, isSpace c = true)
    (hqn : '\n' ∉ q) (hr : rest'.takeWhile isSpace = []) :
    wsStarNl (p ++ '\n' :: (q ++ rest')) = some (p.length + 1) := by
  induction p with
  | nil =>
    have hnone : wsStarNl (q ++ rest') = none := by
      apply wsStarNl_none_of_no_nl
      rw [List.takeWhile_append_of_pos hq, hr, List.append_nil]
      exact hqn
    simp [wsStarNl, hnone]
  | cons c p' ih =>
    have hsc : isSpace c = true := hp c (List.mem_cons_self _ _)
    have ih' := ih (fun x hx => hp x (List.mem_cons_of_mem _ hx))
    by_cases hc : c = '\n'
    · subst hc
      rw [List.cons_append, wsStarNl_cons_nl, ih']
      rfl
    · rw [List.cons_append, wsStarNl_cons_ws hc hsc, ih']
      rfl

theorem matchNlWsNl_two_le {s : List Char} {L : Nat}
    (h : matchNlWsNl s = some L) : 2 ≤ L := by
  rcases s with _ | ⟨c, rest⟩
  · simp [matchNlWsNl] at h
  · by_cases hc : c = '\n'
    · simp only [matchNlWsNl, if_pos hc, Option.map_eq_some'] at h
      rcases h with ⟨k, hk, rfl⟩
      have := wsStarNl_pos hk
      omega
    · simp [matchNlWsNl, hc] at h

theorem matchNlWsNl_none_of_ne {c : Char} {rest : List Char} (h : c ≠ '\n') :
    matchNlWsNl (c :: rest) = none := by
  simp [matchNlWsNl, h]

/-! ## Step equations for the re.split scanner -/

theorem reSplitGoF_fuel (f1 f2 : Nat) {s cur : List Char}
    (h1 : s.length ≤ f1) (h2 : s.length ≤ f2) :
    reSplitGoF f1 s cur = reSplitGoF f2 s cur := by
  induction f1 generalizing f2 s cur with
  | zero =>
    have : s = [] := List.length_eq_zero.mp (Nat.le_zero.mp h1)
    subst this
    cases f2 <;> rfl
  | succ f1 ih =>
    rcases s with _ | ⟨c, rest⟩
    · cases f2 <;> rfl
    · rcases f2 with _ | f2
      · simp at h2
      · rcases hm : matchNlWsNl (c :: rest) with _ | L
        · simp only [reSplitGoF, hm]
          exact ih _ (by simpa using h1) (by simpa using h2)
        · have hL := matchNlWsNl_two_le hm
          simp only [reSplitGoF, hm]
          have hd : ((c :: rest).drop L).length ≤ f1 := by
            rw [List.length_drop]
            simp only [List.length_cons] at h1 ⊢
            omega
          have hd2 : ((c :: rest).drop L).length ≤ f2 := by
            rw [List.length_drop]
            simp only [List.length_cons] at h2 ⊢
            omega
          rw [ih _ hd hd2]

theorem reSplitGo_nil (cur : List Char) : reSplitGo [] cur = [cur.reverse] := rfl

theorem reSplitGo_match {c : Char} {rest : List Char} {L : Nat} (cur : List Char)
    (h : matchNlWsNl (c :: rest) = some L) :
    reSplitGo (c :: rest) cur = cur.reverse :: reSplitGo ((c :: rest).drop L) [] := by
  have hL := matchNlWsNl_two_le h
  have hle : ((c :: rest).drop L).length ≤ rest.length := by
    rw [List.length_drop]
    simp only [List.length_cons]
    omega
  show reSplitGoF (rest.length + 1) (c :: rest) cur = _
  simp only [reSplitGoF, h]
  exact congrArg (cur.reverse :: ·) (reSplitGoF_fuel rest.length _ hle le_rfl)

theorem reSplitGo_step {c : Char} {rest : List Char} (cur : List Char)
    (h : matchNlWsNl (c :: rest) = none) :
    reSplitGo (c :: rest) cur = reSplitGo rest (c :: cur) := by
  show reSplitGoF (rest.length + 1) (c :: rest) cur = _
  simp only [reSplitGoF, h]
  rfl

/-! ## Step equations for the specification splitter -/

theorem specSplitGoF_fuel (f1 f2 : Nat) {s cur : List Char}
    (h1 : s.length ≤ f1) (h2 : s.length ≤ f2) :
    specSplitGoF f1 s cur = specSplitGoF f2 s cur := by
  induction f1 generalizing f2 s cur with
  | zero =>
    have : s = [] := List.length_eq_zero.mp (Nat.le_zero.mp h1)
    subst this
    cases f2 <;> rfl
  | succ f1 ih =>
    rcases s with _ | ⟨c, rest⟩
    · cases f2 <;> rfl
    · rcases f2 with _ | f2
      · simp at h2
      · simp only [specSplitGoF]
        by_cases hs : isSpace c
        · have hdl : ((c :: rest).dropWhile isSpace).length ≤ rest.length := by
            rw [List.dropWhile_cons_of_pos hs]
            exact dropWhile_length_le _ _
          have hb1 : ((c :: rest).dropWhile isSpace).length ≤ f1 :=
            Nat.le_trans hdl (by simpa using h1)
          have hb2 : ((c :: rest).dropWhile isSpace).length ≤ f2 :=
            Nat.le_trans hdl (by simpa using h2)
          by_cases h2c : 2 ≤ ((c :: rest).takeWhile isSpace).count '\n'
          · simp only [if_pos hs, if_pos h2c]
            rw [ih _ hb1 hb2]
          · simp only [if_pos hs, if_neg h2c]
            exact ih _ hb1 hb2
        · simp only [if_neg hs]
          exact ih _ (by simpa using h1) (by simpa using h2)

theorem specSplitGo_nil (cur : List Char) : specSplitGo [] cur = [cur.reverse] := rfl

theorem specSplitGo_nonws {c : Char} {rest : List Char} (cur : List Char)
    (h : isSpace c = false) :
    specSplitGo (c :: rest) cur = specSplitGo rest (c :: cur) := by
  show specSplitGoF (rest.length + 1) (c :: rest) cur = _
  simp only [specSplitGoF, h]
  simp only [Bool.false_eq_true, if_false]
  rfl

theorem specSplitGo_ws2 {c : Char} {rest : List Char} (cur : List Char)
    (h : isSpace c = true) (h2 : 2 ≤ ((c :: rest).takeWhile isSpace).count '\n') :
    specSplitGo (c :: rest) cur =
      cur.reverse :: specSplitGo ((c :: rest).dropWhile isSpace) [] := by
  have hle : ((c :: rest).dropWhile isSpace).length ≤ rest.length := by
    rw [List.dropWhile_cons_of_pos h]
    exact dropWhile_length_le _ _
  show specSplitGoF (rest.length + 1) (c :: rest) cur = _
  simp only [specSplitGoF, if_pos h, if_pos h2]
  exact congrArg (cur.reverse :: ·) (specSplitGoF_fuel rest.length _ hle le_rfl)

theorem specSplitGo_ws1 {c : Char} {rest : List Char} (cur : List Char)
    (h : isSpace c = true) (h2 : ¬ 2 ≤ ((c :: rest).takeWhile isSpace).count '\n') :
    specSplitGo (c :: rest) cur =
      specSplitGo ((c :: rest).dropWhile isSpace)
        (((c :: rest).takeWhile isSpace).reverse ++ cur) := by
  have hle : ((c :: rest).dropWhile isSpace).length ≤ rest.length := by
    rw [List.dropWhile_cons_of_pos h]
    exact dropWhile_length_le _ _
  show specSplitGoF (rest.length + 1) (c :: rest) cur = _
  simp only [specSplitGoF, if_pos h, if_neg h2]
  exact specSplitGoF_fuel rest.length _ hle le_rfl

/-! ## Lemmas about strip -/

theorem dropWhile_eq_nil_of_all {α : Type} {p : α → Bool} {l : List α}
    (h : ∀ c ∈ l, p c = true) : l.dropWhile p = [] := by
  induction l with
  | nil => rfl
  | cons c rest ih =>
    rw [List.dropWhile_cons_of_pos (h c (List.mem_cons_self _ _))]
    exact ih fun x hx => h x (List.mem_cons_of_mem _ hx)

theorem all_of_dropWhile_eq_nil {α : Type} {p : α → Bool} {l : List α}
    (h : l.dropWhile p = []) : ∀ c ∈ l, p c = true := by
  induction l with
  | nil => simp
  | cons c rest ih =>
    by_cases hc : p c
    · rw [List.dropWhile_cons_of_pos hc] at h
      intro x hx
      rcases List.mem_cons.mp hx with rfl | hx'
      · exact hc
      · exact ih h x hx'
    · rw [List.dropWhile_cons_of_neg hc] at h
      exact absurd h (by simp)

theorem dropWhile_head_not {α : Type} {p : α → Bool} {l : List α} {c : α}
    (h : (l.dropWhile p).head? = some c) : p c = false := by
  induction l with
  | nil => simp at h
  | cons a rest ih =>
    by_cases ha : p a
    · rw [List.dropWhile_cons_of_pos ha] at h
      exact ih h
    · rw [List.dropWhile_cons_of_neg ha] at h
      simp only [List.head?_cons, Option.some.injEq] at h
      subst h
      exact Bool.eq_false_iff.mpr ha

theorem dropWhile_eq_self_of_head {α : Type} {p : α → Bool} {l : List α}
    (h : ∀ c, l.head? = some c → p c = false) : l.dropWhile p = l := by
  rcases l with _ | ⟨a, rest⟩
  · rfl
  · exact List.dropWhile_cons_of_neg (by simp [h a rfl])

theorem dropWhile_append_ne {α : Type} {p : α → Bool} {x w : List α}
    (h : x.dropWhile p ≠ []) : (x ++ w).dropWhile p = x.dropWhile p ++ w := by
  rcases hd : x.dropWhile p with _ | ⟨a, t⟩
  · exact absurd hd h
  · rw [List.dropWhile_append, hd]
    rfl

theorem dropWhile_append_singleton {α : Type} {p : α → Bool} {y : List α} {c : α}
    (hp : p c = false) : (y ++ [c]).dropWhile p = y.dropWhile p ++ [c] := by
  have hc : ¬ (p c = true) := by simp [hp]
  rcases hd : y.dropWhile p with _ | ⟨a, t⟩
  · rw [List.dropWhile_append, hd]
    simp only [List.isEmpty_nil, if_true]
    rw [List.dropWhile_cons_of_neg hc]
    simp
  · rw [dropWhile_append_ne (by rw [hd]; simp), hd]

theorem takeWhile_dropWhile_nil {α : Type} (p : α → Bool) (l : List α) :
    (l.dropWhile p).takeWhile p = [] := by
  rcases hd : l.dropWhile p with _ | ⟨a, t⟩
  · rfl
  · have ha : p a = false := dropWhile_head_not (by rw [hd]; rfl)
    exact List.takeWhile_cons_of_neg (by simp [ha])

theorem strip_nil : strip [] = [] := rfl

theorem strip_ws_prefix {w x : List Char} (hw : ∀ c ∈ w, isSpace c = true) :
    strip (w ++ x) = strip x := by
  unfold strip
  rw [List.dropWhile_append_of_pos hw]

theorem strip_all_ws {l : List Char} (h : ∀ c ∈ l, isSpace c = true) :
    strip l = [] := by
  unfold strip
  rw [dropWhile_eq_nil_of_all h]
  rfl

theorem strip_ws_suffix {x w : List Char} (hw : ∀ c ∈ w, isSpace c = true) :
    strip (x ++ w) = strip x := by
  rcases hd : x.dropWhile isSpace with _ | ⟨a, d⟩
  · have hx : ∀ c ∈ x, isSpace c = true := all_of_dropWhile_eq_nil hd
    rw [strip_all_ws hx, strip_all_ws]
    intro c hc
    rcases List.mem_append.mp hc with h1 | h2
    · exact hx c h1
    · exact hw c h2
  · unfold strip
    rw [dropWhile_append_ne (by rw [hd]; simp), hd, List.reverse_append,
      List.dropWhile_append_of_pos (by intro c hc; exact hw c (List.mem_reverse.mp hc))]

theorem strip_cons_form {l : List Char} {a : Char} {d : List Char}
    (hd : l.dropWhile isSpace = a :: d) :
    strip l = a :: (d.reverse.dropWhile isSpace).reverse := by
  have ha : isSpace a = false := dropWhile_head_not (by rw [hd]; rfl)
  unfold strip
  rw [hd, show (a :: d).reverse = d.reverse ++ [a] from by simp,
    dropWhile_append_singleton ha, List.reverse_append]
  rfl

theorem head_strip_not_space {l : List Char} {c : Char}
    (h : (strip l).head? = some c) : isSpace c = false := by
  rcases hd : l.dropWhile isSpace with _ | ⟨a, d⟩
  · rw [strip_all_ws (all_of_dropWhile_eq_nil hd)] at h
    simp at h
  · have ha : isSpace a = false := dropWhile_head_not (by rw [hd]; rfl)
    rw [strip_cons_form hd] at h
    simp only [List.head?_cons, Option.some.injEq] at h
    subst h
    exact ha

theorem revhead_strip_not_space {l : List Char} {c : Char}
    (h : (strip l).reverse.head? = some c) : isSpace c = false := by
  unfold strip at h
  rw [List.reverse_reverse] at h
  exact dropWhile_head_not h

theorem strip_idem (l : List Char) : strip (strip l) = strip l := by
  rcases hd : l.dropWhile isSpace with _ | ⟨a, d⟩
  · rw [strip_all_ws (all_of_dropWhile_eq_nil hd)]
    rfl
  · have ha : isSpace a = false := dropWhile_head_not (by rw [hd]; rfl)
    rw [strip_cons_form hd]
    unfold strip
    rw [List.dropWhile_cons_of_neg (by simp [ha])]
    rw [show (a :: (d.reverse.dropWhile isSpace).reverse).reverse
        = d.reverse.dropWhile isSpace ++ [a] from by simp]
    rw [dropWhile_eq_self_of_head, List.reverse_append]
    · rfl
    · intro c hc
      rcases hz : d.reverse.dropWhile isSpace with _ | ⟨z, t⟩
      · rw [hz] at hc
        simp only [List.nil_append, List.head?_cons, Option.some.injEq] at hc
        subst hc
        exact ha
      · rw [hz] at hc
        simp only [List.cons_append, List.head?_cons, Option.some.injEq] at hc
        subst hc
        exact dropWhile_head_not (by rw [hz]; rfl)

/-! ## The scanner walks over whitespace runs without a blank line -/

theorem first_split {α : Type} [DecidableEq α] {x : α} {l : List α} (h : x ∈ l) :
    ∃ a t, l = a ++ x :: t ∧ x ∉ a := by
  induction l with
  | nil => simp at h
  | cons c rest ih =>
    by_cases hc : c = x
    · exact ⟨[], rest, by rw [hc]; rfl, by simp⟩
    · rcases List.mem_cons.mp h with e | hr
      · exact absurd e.symm hc
      · rcases ih hr with ⟨a, t, rfl, hna⟩
        refine ⟨c :: a, t, rfl, fun hm => ?_⟩
        rcases List.mem_cons.mp hm with e | hm'
        · exact hc e.symm
        · exact hna hm'

theorem last_split {α : Type} [DecidableEq α] {x : α} {l : List α} (h : x ∈ l) :
    ∃ p q, l = p ++ x :: q ∧ x ∉ q := by
  induction l with
  | nil => simp at h
  | cons c rest ih =>
    by_cases hr : x ∈ rest
    · rcases ih hr with ⟨p, q, rfl, hnq⟩
      exact ⟨c :: p, q, rfl, hnq⟩
    · rcases List.mem_cons.mp h with e | hm
      · exact ⟨[], rest, by rw [e]; rfl, hr⟩
      · exact absurd hm hr

/-- Scanning a whitespace run containing at most one newline finds no match
and moves the whole run into the accumulator, provided no whitespace
follows the run. -/
theorem reSplitGo_ws_run {rest' : List Char} (hrest : rest'.takeWhile isSpace = []) :
    ∀ r cur, (∀ c ∈ r, isSpace c = true) → r.count '\n' ≤ 1 →
      reSplitGo (r ++ rest') cur = reSplitGo rest' (r.reverse ++ cur) := by
  intro r
  induction r with
  | nil => simp
  | cons c r' ih =>
    intro cur hr hn
    have hr' : ∀ x ∈ r', isSpace x = true := fun x hx => hr x (List.mem_cons_of_mem _ hx)
    have hn' : r'.count '\n' ≤ 1 := by
      by_cases hc : c = '\n'
      · subst hc
        have := List.count_cons_self '\n' r'
        omega
      · have he : (c :: r').count '\n' = r'.count '\n' := by
          rw [List.count_cons]
          simp [hc, Ne.symm hc]
        omega
    have hstep : matchNlWsNl (c :: (r' ++ rest')) = none := by
      by_cases hc : c = '\n'
      · subst hc
        have hcount : r'.count '\n' = 0 := by
          have := List.count_cons_self '\n' r'
          omega
        have hnm : '\n' ∉ (r' ++ rest').takeWhile isSpace := by
          rw [List.takeWhile_append_of_pos hr', hrest, List.append_nil]
          exact List.count_eq_zero.mp hcount
        simp [matchNlWsNl, wsStarNl_none_of_no_nl hnm]
      · exact matchNlWsNl_none_of_ne hc
    rw [List.cons_append, reSplitGo_step cur hstep, ih (c :: cur) hr' hn']
    congr 1
    simp

theorem drop_append_len {α : Type} (p y : List α) (n : Nat) :
    (p ++ y).drop (p.length + n) = y.drop n := by
  induction p with
  | nil => simp
  | cons c t ih =>
    simp only [List.cons_append, List.length_cons, List.drop]
    rw [show t.length + 1 + n = (t.length + n) + 1 from by omega]
    simpa using ih

/-- Scanning a whitespace run whose newlines are two or more: the leftmost
match starts at the first newline of the run and ends at its last newline,
so the scanner emits the accumulator extended with the whitespace before
the first newline, and restarts after the last newline. -/
theorem reSplitGo_sep {p q rest' : List Char}
    (hp : ∀ c ∈ p, isSpace c = true) (hq : ∀ c ∈ q, isSpace c = true)
    (hqn : '\n' ∉ q) (hrest : rest'.takeWhile isSpace = []) :
    ∀ a cur, (∀ c ∈ a, isSpace c = true) → '\n' ∉ a →
      reSplitGo ((a ++ '\n' :: (p ++ '\n' :: q)) ++ rest') cur =
        (cur.reverse ++ a) :: reSplitGo rest' q.reverse := by
  intro a
  induction a with
  | nil =>
    intro cur _ _
    have hm : matchNlWsNl ('\n' :: (p ++ '\n' :: (q ++ rest'))) = some (p.length + 2) := by
      simp only [matchNlWsNl, if_pos rfl, wsStarNl_last hp hq hqn hrest]
      rfl
    have hshape : (([] ++ '\n' :: (p ++ '\n' :: q)) ++ rest')
        = '\n' :: (p ++ '\n' :: (q ++ rest')) := by simp
    rw [hshape, reSplitGo_match cur hm]
    have hdrop : ('\n' :: (p ++ '\n' :: (q ++ rest'))).drop (p.length + 2)
        = q ++ rest' := by
      have e1 : '\n' :: (p ++ '\n' :: (q ++ rest'))
          = ('\n' :: p) ++ ('\n' :: (q ++ rest')) := by simp
      have e2 : p.length + 2 = ('\n' :: p).length + 1 := by simp
      rw [e1, e2, drop_append_len]
      rfl
    rw [hdrop, reSplitGo_ws_run hrest q [] hq (by
      rw [List.count_eq_zero.mpr hqn]
      omega)]
    simp
  | cons c a' ih =>
    intro cur ha han
    have hc : c ≠ '\n' := by
      intro e
      subst e
      exact han (List.mem_cons_self _ _)
    have hshape : (((c :: a') ++ '\n' :: (p ++ '\n' :: q)) ++ rest')
        = c :: ((a' ++ '\n' :: (p ++ '\n' :: q)) ++ rest') := by simp
    rw [hshape, reSplitGo_step cur (matchNlWsNl_none_of_ne hc)]
    rw [ih (c :: cur) (fun x hx => ha x (List.mem_cons_of_mem _ hx))
      (fun hm => han (List.mem_cons_of_mem _ hm))]
    congr 1
    simp

/-! ## The re.split scanner agrees with the specification splitter -/

theorem splitAgree_nil {curC curS v : List Char} (hcv : curC = curS ++ v)
    (hv : ∀ c ∈ v, isSpace c = true) :
    (reSplitGo [] curC).map strip = (specSplitGo [] curS).map strip := by
  subst hcv
  rw [reSplitGo_nil, specSplitGo_nil]
  simp only [List.map_cons, List.map_nil]
  congr 1
  rw [List.reverse_append]
  exact strip_ws_prefix fun c hc => hv c (List.mem_reverse.mp hc)

theorem splitAgree : ∀ n s curC curS v, s.length ≤ n → curC = curS ++ v →
    (∀ c ∈ v, isSpace c = true) →
    (reSplitGo s curC).map strip = (specSplitGo s curS).map strip := by
  intro n
  induction n with
  | zero =>
    intro s curC curS v hl hcv hv
    have hs : s = [] := List.length_eq_zero.mp (Nat.le_zero.mp hl)
    subst hs
    exact splitAgree_nil hcv hv
  | succ n ih =>
    intro s curC curS v hl hcv hv
    rcases s with _ | ⟨c, rest⟩
    · exact splitAgree_nil hcv hv
    · by_cases hsp : isSpace c = true
      · have hsplit : (c :: rest).takeWhile isSpace ++ (c :: rest).dropWhile isSpace
            = c :: rest := List.takeWhile_append_dropWhile isSpace (c :: rest)
        have hrun_ws : ∀ x ∈ (c :: rest).takeWhile isSpace, isSpace x = true :=
          fun x hx => List.mem_takeWhile_imp hx
        have hrest' : ((c :: rest).dropWhile isSpace).takeWhile isSpace = [] :=
          takeWhile_dropWhile_nil _ _
        have hlen : ((c :: rest).dropWhile isSpace).length ≤ n := by
          rw [List.dropWhile_cons_of_pos hsp]
          exact Nat.le_trans (dropWhile_length_le _ _) (by simpa using hl)
        by_cases h2 : 2 ≤ ((c :: rest).takeWhile isSpace).count '\n'
        · have hmem : '\n' ∈ (c :: rest).takeWhile isSpace := by
            by_contra hnm
            rw [List.count_eq_zero.mpr hnm] at h2
            omega
          rcases first_split hmem with ⟨a, t, hat, hana⟩
          have hcount_t : 1 ≤ t.count '\n' := by
            have he : ((c :: rest).takeWhile isSpace).count '\n'
                = a.count '\n' + ('\n' :: t).count '\n' := by
              rw [hat, List.count_append]
            have ha0 : a.count '\n' = 0 := List.count_eq_zero.mpr hana
            have := List.count_cons_self '\n' t
            omega
          have hmem_t : '\n' ∈ t := by
            by_contra hnm
            rw [List.count_eq_zero.mpr hnm] at hcount_t
            omega
          rcases last_split hmem_t with ⟨p, q, hpq, hqn⟩
          have hrun_eq : (c :: rest).takeWhile isSpace = a ++ '\n' :: (p ++ '\n' :: q) := by
            rw [hat, hpq]
          have ha_ws : ∀ x ∈ a, isSpace x = true :=
            fun x hx => hrun_ws x (by rw [hrun_eq]; exact List.mem_append_left _ hx)
          have hp_ws : ∀ x ∈ p, isSpace x = true :=
            fun x hx => hrun_ws x (by rw [hrun_eq]; simp [hx])
          have hq_ws : ∀ x ∈ q, isSpace x = true :=
            fun x hx => hrun_ws x (by rw [hrun_eq]; simp [hx])
          have hcode : reSplitGo (c :: rest) curC
              = (curC.reverse ++ a) :: reSplitGo ((c :: rest).dropWhile isSpace) q.reverse := by
            conv_lhs => rw [← hsplit, hrun_eq]
            exact reSplitGo_sep hp_ws hq_ws hqn hrest' a curC ha_ws hana
          rw [hcode, specSplitGo_ws2 curS hsp h2]
          simp only [List.map_cons]
          congr 1
          · subst hcv
            rw [List.reverse_append, strip_ws_suffix ha_ws,
              strip_ws_prefix fun x hx => hv x (List.mem_reverse.mp hx)]
          · exact ih _ q.reverse [] q.reverse hlen (by simp)
              fun x hx => hq_ws x (List.mem_reverse.mp hx)
        · have hn1 : ((c :: rest).takeWhile isSpace).count '\n' ≤ 1 := by omega
          have hcode : reSplitGo (c :: rest) curC
              = reSplitGo ((c :: rest).dropWhile isSpace)
                  (((c :: rest).takeWhile isSpace).reverse ++ curC) := by
            conv_lhs => rw [← hsplit]
            exact reSplitGo_ws_run hrest' _ curC hrun_ws hn1
          rw [hcode, specSplitGo_ws1 curS hsp h2]
          exact ih _ _ _ v hlen (by rw [hcv, List.append_assoc]) hv
      · have hsp' : isSpace c = false := by
          revert hsp
          cases isSpace c <;> simp
        rw [reSplitGo_step curC (matchNlWsNl_none_of_ne (ne_nl_of_not_isSpace hsp')),
          specSplitGo_nonws curS hsp']
        exact ih rest (c :: curC) (c :: curS) v (by simpa using hl) (by rw [hcv]; rfl) hv

theorem extractParagraphs_eq_specParagraphs (s : List Char) :
    extractParagraphs s = specParagraphs s := by
  unfold extractParagraphs specParagraphs
  rw [splitAgree s.length s [] [] [] le_rfl (by simp) (by simp)]

/-! ## Entries of the extraction are nonempty and not whitespace-only -/

theorem reSplitGo_chars : ∀ n s cur seg, s.length ≤ n → seg ∈ reSplitGo s cur →
    ∀ c ∈ seg, c ∈ cur ∨ c ∈ s := by
  intro n
  induction n with
  | zero =>
    intro s cur seg hl hseg c hc
    have hs : s = [] := List.length_eq_zero.mp (Nat.le_zero.mp hl)
    subst hs
    rw [reSplitGo_nil] at hseg
    rcases List.mem_singleton.mp hseg with rfl
    exact Or.inl (List.mem_reverse.mp hc)
  | succ n ih =>
    intro s cur seg hl hseg c hc
    rcases s with _ | ⟨a, rest⟩
    · rw [reSplitGo_nil] at hseg
      rcases List.mem_singleton.mp hseg with rfl
      exact Or.inl (List.mem_reverse.mp hc)
    · rcases hm : matchNlWsNl (a :: rest) with _ | L
      · rw [reSplitGo_step cur hm] at hseg
        rcases ih rest (a :: cur) seg (by simpa using hl) hseg c hc with h1 | h2
        · rcases List.mem_cons.mp h1 with rfl | h1'
          · exact Or.inr (List.mem_cons_self _ _)
          · exact Or.inl h1'
        · exact Or.inr (List.mem_cons_of_mem _ h2)
      · have hL := matchNlWsNl_two_le hm
        rw [reSplitGo_match cur hm] at hseg
        rcases List.mem_cons.mp hseg with rfl | hseg'
        · exact Or.inl (List.mem_reverse.mp hc)
        · have hd : ((a :: rest).drop L).length ≤ n := by
            rw [List.length_drop]
            simp only [List.length_cons] at hl ⊢
            omega
          rcases ih _ [] seg hd hseg' c hc with h1 | h2
          · simp at h1
          · exact Or.inr (List.mem_of_mem_drop h2)

theorem extractParagraphs_of_all_ws {s : List Char}
    (h : ∀ c ∈ s, isSpace c = true) : extractParagraphs s = [] := by
  unfold extractParagraphs
  apply List.filter_eq_nil_iff.mpr
  intro x hx
  rcases List.mem_map.mp hx with ⟨seg, hseg, rfl⟩
  have hws : ∀ c ∈ seg, isSpace c = true := by
    intro c hc
    rcases reSplitGo_chars s.length s [] seg le_rfl hseg c hc with h1 | h2
    · simp at h1
    · exact h c h2
  rw [strip_all_ws hws]
  simp

theorem extractParagraphs_mem {s p : List Char} (hp : p ∈ extractParagraphs s) :
    p ≠ [] ∧ ∃ c ∈ p, isSpace c = false := by
  unfold extractParagraphs at hp
  rcases List.mem_filter.mp hp with ⟨hmem, hne⟩
  rcases List.mem_map.mp hmem with ⟨seg, _, rfl⟩
  have hne' : strip seg ≠ [] := by simpa using hne
  rcases hstrip : strip seg with _ | ⟨a, t⟩
  · exact absurd hstrip hne'
  · exact ⟨by simp, a, List.mem_cons_self _ _,
      head_strip_not_space (show (strip seg).head? = some a by rw [hstrip]; rfl)⟩

/-! ## No segment of the split contains a blank line -/

theorem mem_of_head?_eq {α : Type} {l : List α} {a : α} (h : l.head? = some a) :
    a ∈ l := by
  cases l with
  | nil => simp at h
  | cons b t =>
    simp only [List.head?_cons, Option.some.injEq] at h
    subst h
    exact List.mem_cons_self _ _

theorem mem_of_getLast?_eq {α : Type} {l : List α} {a : α} (h : l.getLast? = some a) :
    a ∈ l := by
  rw [← List.head?_reverse] at h
  exact List.mem_reverse.mp (mem_of_head?_eq h)

theorem not_blankIn_nil : ¬BlankIn [] := by
  rintro ⟨u, v, w, _, he⟩
  exact absurd he.symm (by simp)

theorem blankIn_cons {l : List Char} (c : Char) (h : BlankIn l) : BlankIn (c :: l) := by
  rcases h with ⟨u, v, w, hv, rfl⟩
  exact ⟨c :: u, v, w, hv, rfl⟩

theorem blankIn_extend {m w1 w2 : List Char} (h : BlankIn m) :
    BlankIn (w1 ++ (m ++ w2)) := by
  rcases h with ⟨u, v, w, hv, rfl⟩
  exact ⟨w1 ++ u, v, w ++ w2, hv, by simp⟩

theorem snoc_inj {α : Type} {a b : List α} {p q : α} (h : a ++ [p] = b ++ [q]) :
    a = b ∧ p = q := by
  have hlen : a.length = b.length := by
    have hl := congrArg List.length h
    simp at hl
    omega
  rcases List.append_inj h hlen with ⟨h1, h2⟩
  exact ⟨h1, by simpa using h2⟩

/-- A blank-line pattern in a list extended by one character either lies in
the original list, or ends at the new character, which is then a newline
preceded by whitespace reaching back to an earlier newline. -/
theorem blankIn_snoc {x : List Char} {c : Char} (h : BlankIn (x ++ [c])) :
    BlankIn x ∨ (c = '\n' ∧ ∃ u vv, (∀ d ∈ vv, isSpace d = true) ∧ x = u ++ '\n' :: vv) := by
  rcases h with ⟨u, v, w, hv, he⟩
  rcases List.eq_nil_or_concat w with rfl | ⟨w', d, rfl⟩
  · have he' : x ++ [c] = (u ++ '\n' :: v) ++ ['\n'] := by
      rw [he]
    rcases snoc_inj he' with ⟨h1, h2⟩
    exact Or.inr ⟨h2, u, v, hv, h1⟩
  · have he' : x ++ [c] = (u ++ '\n' :: v ++ '\n' :: w') ++ [d] := by
      rw [he]
      simp [List.concat_eq_append]
    rcases snoc_inj he' with ⟨h1, _⟩
    exact Or.inl ⟨u, v, w', hv, by rw [h1]⟩

theorem strip_decomp (l : List Char) :
    l = l.takeWhile isSpace ++ (strip l ++ ((l.dropWhile isSpace).reverse.takeWhile isSpace).reverse) := by
  have h2 : l.dropWhile isSpace
      = strip l ++ ((l.dropWhile isSpace).reverse.takeWhile isSpace).reverse := by
    unfold strip
    conv_lhs => rw [← List.reverse_reverse (l.dropWhile isSpace)]
    conv_lhs => rw [← List.takeWhile_append_dropWhile isSpace (l.dropWhile isSpace).reverse]
    rw [List.reverse_append]
  conv_lhs => rw [← List.takeWhile_append_dropWhile isSpace l, h2]

theorem noBlank_strip {l : List Char} (h : ¬BlankIn l) : ¬BlankIn (strip l) := by
  intro hb
  exact h (by rw [strip_decomp l]; exact blankIn_extend hb)

theorem wsStarNl_none_of_matchNone {rest : List Char}
    (h : matchNlWsNl ('\n' :: rest) = none) : wsStarNl rest = none := by
  simp [matchNlWsNl, Option.map_eq_none'] at h
  exact h

/-- Invariant of the scanner: if the accumulated segment contains no blank
line and any newline in its trailing whitespace is not followed by a
newline in the leading whitespace of the remaining input, then every
emitted segment is free of blank lines. -/
theorem reSplitGo_noBlank : ∀ n s cur, s.length ≤ n → ¬BlankIn cur.reverse →
    ('\n' ∈ cur.takeWhile isSpace → '\n' ∉ s.takeWhile isSpace) →
    ∀ seg ∈ reSplitGo s cur, ¬BlankIn seg := by
  intro n
  induction n with
  | zero =>
    intro s cur hl h1 _ seg hseg
    have hs : s = [] := List.length_eq_zero.mp (Nat.le_zero.mp hl)
    subst hs
    rw [reSplitGo_nil] at hseg
    rcases List.mem_singleton.mp hseg with rfl
    exact h1
  | succ n ih =>
    intro s cur hl h1 h2 seg hseg
    rcases s with _ | ⟨c, rest⟩
    · rw [reSplitGo_nil] at hseg
      rcases List.mem_singleton.mp hseg with rfl
      exact h1
    · rcases hm : matchNlWsNl (c :: rest) with _ | L
      · rw [reSplitGo_step cur hm] at hseg
        refine ih rest (c :: cur) (by simpa using hl) ?_ ?_ seg hseg
        · -- the extended segment still has no blank line
          intro hb
          rcases blankIn_snoc (by simpa using hb) with hbx | ⟨hcnl, u, vv, hvv, hx⟩
          · exact h1 hbx
          · subst hcnl
            have hcur : cur = vv.reverse ++ '\n' :: u.reverse := by
              have hrr := congrArg List.reverse hx
              rw [List.reverse_reverse] at hrr
              rw [hrr]
              simp
            have hmem : '\n' ∈ cur.takeWhile isSpace := by
              rw [hcur, List.takeWhile_append_of_pos
                (fun d hd => hvv d (List.mem_reverse.mp hd))]
              refine List.mem_append_right _ ?_
              rw [List.takeWhile_cons_of_pos (by decide)]
              exact List.mem_cons_self _ _
            refine h2 hmem ?_
            rw [List.takeWhile_cons_of_pos (by decide)]
            exact List.mem_cons_self _ _
        · -- the straddle condition is reestablished
          by_cases hcw : isSpace c = true
          · intro hmem
            rw [List.takeWhile_cons_of_pos hcw] at hmem
            rcases List.mem_cons.mp hmem with he | hmem'
            · have hc : c = '\n' := he.symm
              subst hc
              exact wsStarNl_no_nl_of_none (wsStarNl_none_of_matchNone hm)
            · have := h2 hmem'
              rw [List.takeWhile_cons_of_pos hcw] at this
              intro hnr
              exact this (List.mem_cons_of_mem _ hnr)
          · intro hmem
            rw [List.takeWhile_cons_of_neg hcw] at hmem
            simp at hmem
      · have hL := matchNlWsNl_two_le hm
        rw [reSplitGo_match cur hm] at hseg
        rcases List.mem_cons.mp hseg with rfl | hseg'
        · exact h1
        · refine ih _ [] ?_ not_blankIn_nil (by simp) seg hseg'
          rw [List.length_drop]
          simp only [List.length_cons] at hl ⊢
          omega

theorem extractParagraphs_noBlank {s p : List Char}
    (hp : p ∈ extractParagraphs s) : ¬BlankIn p := by
  unfold extractParagraphs at hp
  rcases List.mem_filter.mp hp with ⟨hmem, _⟩
  rcases List.mem_map.mp hmem with ⟨seg, hseg, rfl⟩
  exact noBlank_strip
    (reSplitGo_noBlank s.length s [] le_rfl not_blankIn_nil (by simp) seg hseg)

/-! ## Re-splitting the joined paragraphs -/

/-- The scanner walks over a whole segment whose last character is not
whitespace and which contains no blank line, moving it into the
accumulator. -/
theorem reSplitGo_clean (rest : List Char) : ∀ p cur,
    (∀ c, p.getLast? = some c → isSpace c = false) → ¬BlankIn p →
    reSplitGo (p ++ rest) cur = reSplitGo rest (p.reverse ++ cur) := by
  intro p
  induction p with
  | nil => simp
  | cons c p' ih =>
    intro cur hlast hnb
    have hstep : matchNlWsNl (c :: (p' ++ rest)) = none := by
      by_cases hc : c = '\n'
      · subst hc
        rcases hp' : p' with _ | ⟨d, p''⟩
        · exact absurd (hlast '\n' (by rw [hp']; rfl)) (by decide)
        · rw [← hp']
          have hlast' : ∃ e, p'.getLast? = some e ∧ isSpace e = false := by
            rcases hg : p'.getLast? with _ | e
            · rw [List.getLast?_eq_none_iff] at hg
              rw [hp'] at hg
              exact absurd hg (by simp)
            · exact ⟨e, rfl, hlast e (by rw [hp'] at hg ⊢; rw [List.getLast?_cons_cons]; exact hg)⟩
          rcases hlast' with ⟨e, hge, hews⟩
          have hstop : ∃ x ∈ p', isSpace x = false := ⟨e, mem_of_getLast?_eq hge, hews⟩
          have htw : (p' ++ rest).takeWhile isSpace = p'.takeWhile isSpace :=
            takeWhile_append_stop hstop
          have hno : '\n' ∉ p'.takeWhile isSpace := by
            intro hmem
            rcases first_split hmem with ⟨a, tt, hat, hana⟩
            apply hnb
            refine ⟨[], a, tt ++ p'.dropWhile isSpace,
              fun d hd => List.mem_takeWhile_imp (by rw [hat]; exact List.mem_append_left _ hd), ?_⟩
            have hp'' : p' = a ++ '\n' :: (tt ++ p'.dropWhile isSpace) := by
              conv_lhs => rw [← List.takeWhile_append_dropWhile isSpace p', hat]
              simp
            conv_lhs => rw [hp'']
            simp
          simp [matchNlWsNl, wsStarNl_none_of_no_nl (by rw [htw]; exact hno)]
      · exact matchNlWsNl_none_of_ne hc
    rw [List.cons_append, reSplitGo_step cur hstep, ih (c :: cur) ?_ ?_]
    · congr 1
      simp
    · intro e he
      rcases hp' : p' with _ | ⟨d, p''⟩
      · rw [hp'] at he
        simp at he
      · refine hlast e ?_
        rw [hp'] at he ⊢
        rw [List.getLast?_cons_cons]
        exact he
    · exact fun hb => hnb (blankIn_cons c hb)

/-- The scanner consumes exactly the inserted blank-line separator when the
following text does not start with whitespace. -/
theorem reSplitGo_join_sep {rest : List Char} (cur : List Char)
    (hhead : rest.takeWhile isSpace = []) :
    reSplitGo ('\n' :: '\n' :: rest) cur = cur.reverse :: reSplitGo rest [] := by
  have hnone : wsStarNl rest = none := wsStarNl_none_of_no_nl (by rw [hhead]; simp)
  have h1 : wsStarNl ('\n' :: rest) = some 1 := by
    simp [wsStarNl, hnone]
  have hm : matchNlWsNl ('\n' :: '\n' :: rest) = some 2 := by
    simp [matchNlWsNl, h1]
  rw [reSplitGo_match cur hm]
  rfl

theorem reSplit_joinBlank : ∀ ps : List (List Char),
    (∀ p ∈ ps, p ≠ [] ∧ strip p = p ∧ ¬BlankIn p) → ps ≠ [] →
    (reSplitGo (joinBlank ps) []).map strip = ps := by
  intro ps
  induction ps with
  | nil => exact fun _ h => absurd rfl h
  | cons p ps' ih =>
    intro hclean _
    obtain ⟨hne, hstr, hnb⟩ := hclean p (List.mem_cons_self _ _)
    have hlast : ∀ c, p.getLast? = some c → isSpace c = false := by
      intro c hc
      exact revhead_strip_not_space
        (show (strip p).reverse.head? = some c by rw [hstr, List.head?_reverse]; exact hc)
    rcases ps' with _ | ⟨q, ps''⟩
    · have hone : reSplitGo p [] = reSplitGo [] (p.reverse ++ []) := by
        conv_lhs => rw [← List.append_nil p]
        exact reSplitGo_clean [] p [] hlast hnb
      show (reSplitGo p []).map strip = [p]
      rw [hone, reSplitGo_nil]
      simp [hstr]
    · obtain ⟨hqne, hqstr, _⟩ := hclean q (List.mem_cons_of_mem _ (List.mem_cons_self _ _))
      have hq_head : (joinBlank (q :: ps'')).takeWhile isSpace = [] := by
        rcases hq : q with _ | ⟨a, t⟩
        · exact absurd hq hqne
        · rw [hq] at hqstr
          have ha : isSpace a = false := head_strip_not_space
            (show (strip (a :: t)).head? = some a by rw [hqstr]; rfl)
          have hna : ¬ (isSpace a = true) := by simp [ha]
          cases ps'' with
          | nil =>
            rw [show joinBlank [a :: t] = a :: t from rfl, List.takeWhile_cons_of_neg hna]
          | cons r rs =>
            rw [show joinBlank ((a :: t) :: r :: rs)
                = (a :: t) ++ '\n' :: '\n' :: joinBlank (r :: rs) from rfl,
              List.cons_append, List.takeWhile_cons_of_neg hna]
      have hjoin : joinBlank (p :: q :: ps'') = p ++ '\n' :: '\n' :: joinBlank (q :: ps'') := rfl
      rw [hjoin, reSplitGo_clean ('\n' :: '\n' :: joinBlank (q :: ps'')) p [] hlast hnb,
        reSplitGo_join_sep (p.reverse ++ []) hq_head]
      rw [List.map_cons, ih (fun r hr => hclean r (List.mem_cons_of_mem _ hr)) (by simp)]
      simp [hstr]

theorem extractParagraphs_clean {s p : List Char} (hp : p ∈ extractParagraphs s) :
    p ≠ [] ∧ strip p = p ∧ ¬BlankIn p := by
  have h1 := (extractParagraphs_mem hp).1
  have h3 := extractParagraphs_noBlank hp
  have h2 : strip p = p := by
    unfold extractParagraphs at hp
    rcases List.mem_filter.mp hp with ⟨hmem, _⟩
    rcases List.mem_map.mp hmem with ⟨seg, _, rfl⟩
    exact strip_idem seg
  exact ⟨h1, h2, h3⟩

theorem extract_joinBlank (s : List Char) :
    extractParagraphs (joinBlank (extractParagraphs s)) = extractParagraphs s := by
  rcases hps : extractParagraphs s with _ | ⟨p, ps'⟩
  · rfl
  · have hclean : ∀ r ∈ p :: ps', r ≠ [] ∧ strip r = r ∧ ¬BlankIn r := by
      intro r hr
      exact extractParagraphs_clean (by rw [hps]; exact hr)
    show extractParagraphs (joinBlank (p :: ps')) = p :: ps'
    unfold extractParagraphs
    rw [reSplit_joinBlank (p :: ps') hclean (by simp)]
    apply List.filter_eq_self.mpr
    intro a ha
    have := (hclean a ha).1
    simp only [Bool.not_eq_true']
    rw [← Bool.not_eq_true]
    intro hempty
    exact this (List.isEmpty_iff.mp hempty)

/-! ## Lemmas about the Markdown substitution -/

theorem findClose_len {cl : List Char} : ∀ {s : List Char} {gr : List Char × List Char},
    findClose cl s = some gr → gr.1.length + cl.length + gr.2.length = s.length := by
  intro s
  induction s with
  | nil =>
    intro gr h
    simp only [findClose] at h
    split at h
    · rcases Option.some.inj h with rfl
      have hcl : cl = [] := by
        rename_i hpre
        have := List.isPrefixOf_iff_prefix.mp hpre
        simpa using this
      simp [hcl]
    · simp at h
  | cons c rest ih =>
    intro gr h
    simp only [findClose] at h
    by_cases hpre : cl.isPrefixOf (c :: rest) = true
    · rw [if_pos hpre] at h
      rcases Option.some.inj h with rfl
      have hle : cl.length ≤ rest.length + 1 := by
        have := (List.isPrefixOf_iff_prefix.mp hpre).length_le
        simpa using this
      simp only [List.length_nil, List.length_drop, List.length_cons]
      omega
    · rw [if_neg hpre] at h
      by_cases hnl : c = '\n'
      · rw [if_pos hnl] at h
        simp at h
      · rw [if_neg hnl] at h
        rcases Option.map_eq_some'.mp h with ⟨gr', hgr', rfl⟩
        have := ih hgr'
        simp only [List.length_cons]
        omega

theorem rsubF_fuel {op cl : List Char} (hop : op ≠ []) :
    ∀ f1 f2 s, s.length ≤ f1 → s.length ≤ f2 →
      rsubF op cl f1 s = rsubF op cl f2 s := by
  have hople : 1 ≤ op.length := List.length_pos.mpr hop
  intro f1
  induction f1 with
  | zero =>
    intro f2 s h1 _
    have hs : s = [] := List.length_eq_zero.mp (Nat.le_zero.mp h1)
    subst hs
    cases f2 <;> rfl
  | succ f1 ih =>
    intro f2 s h1 h2
    rcases s with _ | ⟨c, rest⟩
    · cases f2 <;> rfl
    · rcases f2 with _ | f2
      · simp at h2
      · simp only [rsubF]
        by_cases hpre : op.isPrefixOf (c :: rest) = true
        · rw [if_pos hpre, if_pos hpre]
          rcases hfc : findClose cl ((c :: rest).drop op.length) with _ | gr
          · exact congrArg (c :: ·) (ih f2 rest (by simpa using h1) (by simpa using h2))
          · have hlen := findClose_len hfc
            simp only [List.length_drop, List.length_cons] at hlen
            have hr1 : gr.2.length ≤ f1 := by
              simp only [List.length_cons] at h1
              omega
            have hr2 : gr.2.length ≤ f2 := by
              simp only [List.length_cons] at h2
              omega
            exact congrArg (gr.1 ++ ·) (ih f2 gr.2 hr1 hr2)
        · rw [if_neg hpre, if_neg hpre]
          exact congrArg (c :: ·) (ih f2 rest (by simpa using h1) (by simpa using h2))

theorem rsub_nil (op cl : List Char) : rsub op cl [] = [] := rfl

theorem rsub_match {op cl : List Char} {c : Char} {rest g r : List Char} (hop : op ≠ [])
    (hpre : op.isPrefixOf (c :: rest) = true)
    (hfc : findClose cl ((c :: rest).drop op.length) = some (g, r)) :
    rsub op cl (c :: rest) = g ++ rsub op cl r := by
  have hople : 1 ≤ op.length := List.length_pos.mpr hop
  have hlen := findClose_len hfc
  simp only [List.length_drop, List.length_cons] at hlen
  show rsubF op cl (rest.length + 1) (c :: rest) = _
  simp only [rsubF, if_pos hpre, hfc]
  exact congrArg (g ++ ·) (rsubF_fuel hop rest.length r.length r (by omega) le_rfl)

theorem rsub_step_pre {op cl : List Char} {c : Char} {rest : List Char}
    (hpre : op.isPrefixOf (c :: rest) = false) :
    rsub op cl (c :: rest) = c :: rsub op cl rest := by
  show rsubF op cl (rest.length + 1) (c :: rest) = _
  simp only [rsubF, hpre]
  rfl

theorem isPrefixOf_cons_head {a b : Char} {as bs : List Char}
    (h : (a :: as).isPrefixOf (b :: bs) = true) : a = b := by
  have := List.isPrefixOf_iff_prefix.mp h
  rcases this with ⟨t, ht⟩
  simp only [List.cons_append] at ht
  exact (List.cons.inj ht).1

theorem rsub_id_of_head_notin {op cl s : List Char} {h0 : Char} (hop : op = h0 :: op.tail)
    (hnot : h0 ∉ s) : rsub op cl s = s := by
  induction s with
  | nil => rfl
  | cons c rest ih =>
    have hc : h0 ≠ c := fun e => hnot (by rw [e]; exact List.mem_cons_self _ _)
    have hpre : op.isPrefixOf (c :: rest) = false := by
      rw [hop]
      by_contra hx
      have : op.tail.isPrefixOf (c :: rest) = true ∨ _ := Or.inr trivial
      have hx' : (h0 :: op.tail).isPrefixOf (c :: rest) = true := by
        revert hx
        cases (h0 :: op.tail).isPrefixOf (c :: rest) <;> simp
      exact hc (isPrefixOf_cons_head hx')
    rw [rsub_step_pre hpre, ih fun hm => hnot (List.mem_cons_of_mem _ hm)]

theorem findClose_through {c0 : Char} {cltail : List Char} :
    ∀ {t rem : List Char}, (∀ c ∈ t, c ≠ '\n' ∧ c ≠ c0) →
    (c0 :: cltail).isPrefixOf rem = true →
    findClose (c0 :: cltail) (t ++ rem) = some (t, rem.drop (c0 :: cltail).length) := by
  intro t
  induction t with
  | nil =>
    intro rem _ hpre
    rcases rem with _ | ⟨r0, rs⟩
    · simp [List.isPrefixOf] at hpre
    · simp only [List.nil_append, findClose, if_pos hpre]
  | cons c t' ih =>
    intro rem ht hpre
    have hc := ht c (List.mem_cons_self _ _)
    have hpre' : (c0 :: cltail).isPrefixOf (c :: (t' ++ rem)) = false := by
      by_contra hx
      have hx' : (c0 :: cltail).isPrefixOf (c :: (t' ++ rem)) = true := by
        revert hx
        cases (c0 :: cltail).isPrefixOf (c :: (t' ++ rem)) <;> simp
      exact hc.2 (isPrefixOf_cons_head hx').symm
    have hnl : ¬ (c = '\n') := hc.1
    simp only [List.cons_append, findClose, List.append_eq, hpre', Bool.false_eq_true,
      if_false, if_neg hnl]
    rw [ih (fun x hx => ht x (List.mem_cons_of_mem _ hx)) hpre]
    rfl

/-- One re.sub pass on a marker-wrapped text whose body contains neither a
newline nor the closing marker's first character replaces the whole match
by the body. -/
theorem rsub_wrap {t op : List Char} {c0 : Char} {cltail : List Char}
    (hop : op ≠ []) (ht : ∀ c ∈ t, c ≠ '\n' ∧ c ≠ c0) :
    rsub op (c0 :: cltail) (op ++ (t ++ (c0 :: cltail))) = t := by
  rcases hop' : op with _ | ⟨o0, otail⟩
  · exact absurd hop' hop
  · have hpre : (o0 :: otail).isPrefixOf ((o0 :: otail) ++ (t ++ (c0 :: cltail))) = true :=
      List.isPrefixOf_iff_prefix.mpr (List.prefix_append _ _)
    have hdrop : ((o0 :: otail) ++ (t ++ (c0 :: cltail))).drop (o0 :: otail).length
        = t ++ (c0 :: cltail) := List.drop_left _ _
    have hfc : findClose (c0 :: cltail) (t ++ (c0 :: cltail))
        = some (t, []) := by
      have hself : (c0 :: cltail).isPrefixOf (c0 :: cltail) = true :=
        List.isPrefixOf_iff_prefix.mpr (List.prefix_refl _)
      rw [findClose_through ht hself, List.drop_length]
    have hcons : (o0 :: otail) ++ (t ++ (c0 :: cltail))
        = o0 :: (otail ++ (t ++ (c0 :: cltail))) := rfl
    rw [hcons, rsub_match (by simp) (by rw [← hcons]; exact hpre)
      (by rw [← hcons, hdrop]; exact hfc)]
    simp [rsub_nil]

theorem rsub_star2_over {cl t : List Char} (h : '*' ∉ t) :
    rsub ['*', '*'] cl (t ++ ['*']) = t ++ ['*'] := by
  induction t with
  | nil =>
    have hpre : (['*', '*'] : List Char).isPrefixOf ['*'] = false := by decide
    rw [show ([] : List Char) ++ ['*'] = '*' :: [] from rfl, rsub_step_pre hpre, rsub_nil]
  | cons c t' ih =>
    have hc : c ≠ '*' := fun e => h (by rw [← e]; exact List.mem_cons_self _ _)
    have hpre : (['*', '*'] : List Char).isPrefixOf (c :: (t' ++ ['*'])) = false := by
      by_contra hx
      have hx' : (['*', '*'] : List Char).isPrefixOf (c :: (t' ++ ['*'])) = true := by
        revert hx
        cases (['*', '*'] : List Char).isPrefixOf (c :: (t' ++ ['*'])) <;> simp
      exact hc (isPrefixOf_cons_head hx').symm
    rw [List.cons_append, rsub_step_pre hpre, ih fun hm => h (List.mem_cons_of_mem _ hm)]

/-- The bold pass leaves a single-asterisk-wrapped text unchanged. -/
theorem rsub_star2_id_italic {cl t : List Char} (h : '*' ∉ t) (hne : t ≠ []) :
    rsub ['*', '*'] cl ('*' :: (t ++ ['*'])) = '*' :: (t ++ ['*']) := by
  rcases t with _ | ⟨a, t'⟩
  · exact absurd rfl hne
  · have ha : a ≠ '*' := fun e => h (by rw [← e]; exact List.mem_cons_self _ _)
    have hpre : (['*', '*'] : List Char).isPrefixOf ('*' :: ((a :: t') ++ ['*'])) = false := by
      rcases hb : (['*', '*'] : List Char).isPrefixOf ('*' :: ((a :: t') ++ ['*'])) with _ | _
      · rfl
      · exfalso
        have h2 : (['*'] : List Char).isPrefixOf ((a :: t') ++ ['*']) = true := by
          revert hb
          simp [List.isPrefixOf]
        exact ha (isPrefixOf_cons_head h2).symm
    rw [rsub_step_pre hpre, rsub_star2_over h]

/-! ## Lemmas about the directory walk -/

theorem entrySize_pos (e : Entry) : 1 ≤ entrySize e := by
  cases e with
  | file n => simp [entrySize]
  | dir n cs => simp [entrySize]

theorem entryListSize_pos (es : EntryList) : 1 ≤ entryListSize es := by
  cases es with
  | nil => simp [entryListSize]
  | cons e es' =>
    have := entrySize_pos e
    simp [entryListSize]
    omega

theorem dir_mem_size : ∀ N es, entryListSize es ≤ N → ∀ d cs,
    Entry.dir d cs ∈ es.toList → entryListSize cs < entryListSize es := by
  intro N
  induction N with
  | zero =>
    intro es hle
    have := entryListSize_pos es
    omega
  | succ N ih =>
    intro es hle d cs hmem
    cases es with
    | nil => simp [EntryList.toList] at hmem
    | cons e es' =>
      rw [show (EntryList.cons e es').toList = e :: es'.toList from rfl] at hmem
      rcases List.mem_cons.mp hmem with he | hm'
      · subst he
        have h1 := entryListSize_pos es'
        simp [entryListSize, entrySize]
        omega
      · have hsz : entryListSize es' ≤ N := by
          have := entrySize_pos e
          simp [entryListSize] at hle
          omega
        have := ih es' hsz d cs hm'
        have := entrySize_pos e
        simp [entryListSize]
        omega

theorem mem_filesAt : ∀ N es, entryListSize es ≤ N → ∀ root p,
    (p ∈ filesAt root es ↔
      ∃ n, Entry.file n ∈ es.toList ∧ supportedExt n = true ∧ p = joinPath root n) := by
  intro N
  induction N with
  | zero =>
    intro es hle
    have := entryListSize_pos es
    omega
  | succ N ih =>
    intro es hle root p
    cases es with
    | nil => simp [filesAt, EntryList.toList]
    | cons e es' =>
      have hsz : entryListSize es' ≤ N := by
        have := entrySize_pos e
        simp [entryListSize] at hle
        omega
      cases e with
      | file n =>
        by_cases hs : supportedExt n = true
        · rw [show filesAt root (.cons (.file n) es') = joinPath root n :: filesAt root es'
            from by simp [filesAt, hs]]
          constructor
          · intro hp
            rcases List.mem_cons.mp hp with rfl | hp'
            · exact ⟨n, by simp [EntryList.toList], hs, rfl⟩
            · rcases (ih es' hsz root p).mp hp' with ⟨n', hm', hs', hp''⟩
              exact ⟨n', by simp [EntryList.toList, hm'], hs', hp''⟩
          · rintro ⟨n', hm', hs', rfl⟩
            rw [show (EntryList.cons (.file n) es').toList = Entry.file n :: es'.toList
              from rfl] at hm'
            rcases List.mem_cons.mp hm' with he | hm''
            · rcases Entry.file.inj he with rfl
              exact List.mem_cons_self _ _
            · exact List.mem_cons_of_mem _
                ((ih es' hsz root _).mpr ⟨n', hm'', hs', rfl⟩)
        · rw [show filesAt root (.cons (.file n) es') = filesAt root es'
            from by simp [filesAt, hs]]
          rw [ih es' hsz root p]
          constructor
          · rintro ⟨n', hm', hs', rfl⟩
            exact ⟨n', by simp [EntryList.toList, hm'], hs', rfl⟩
          · rintro ⟨n', hm', hs', rfl⟩
            rw [show (EntryList.cons (.file n) es').toList = Entry.file n :: es'.toList
              from rfl] at hm'
            rcases List.mem_cons.mp hm' with he | hm''
            · rcases Entry.file.inj he with rfl
              exact absurd hs' hs
            · exact ⟨n', hm'', hs', rfl⟩
      | dir d cs =>
        rw [show filesAt root (.cons (.dir d cs) es') = filesAt root es' from rfl]
        rw [ih es' hsz root p]
        constructor
        · rintro ⟨n', hm', hs', rfl⟩
          exact ⟨n', by simp [EntryList.toList, hm'], hs', rfl⟩
        · rintro ⟨n', hm', hs', rfl⟩
          rw [show (EntryList.cons (.dir d cs) es').toList = Entry.dir d cs :: es'.toList
            from rfl] at hm'
          rcases List.mem_cons.mp hm' with he | hm''
          · exact absurd he (by simp)
          · exact ⟨n', hm'', hs', rfl⟩

theorem mem_walkList : ∀ N es, entryListSize es ≤ N → ∀ root p,
    (p ∈ walkList root es ↔
      ∃ d cs, Entry.dir d cs ∈ es.toList ∧ startsWithDot d = false ∧
        p ∈ parseDir (joinPath root d) cs) := by
  intro N
  induction N with
  | zero =>
    intro es hle
    have := entryListSize_pos es
    omega
  | succ N ih =>
    intro es hle root p
    cases es with
    | nil => simp [walkList, EntryList.toList]
    | cons e es' =>
      have hsz : entryListSize es' ≤ N := by
        have := entrySize_pos e
        simp [entryListSize] at hle
        omega
      rw [show walkList root (.cons e es') = walkEntry root e ++ walkList root es' from rfl]
      cases e with
      | file n =>
        rw [show walkEntry root (.file n) = [] from rfl, List.nil_append, ih es' hsz root p]
        constructor
        · rintro ⟨d, cs, hm', hh, hp⟩
          exact ⟨d, cs, by simp [EntryList.toList, hm'], hh, hp⟩
        · rintro ⟨d, cs, hm', hh, hp⟩
          rw [show (EntryList.cons (.file n) es').toList = Entry.file n :: es'.toList
            from rfl] at hm'
          rcases List.mem_cons.mp hm' with he | hm''
          · exact absurd he (by simp)
          · exact ⟨d, cs, hm'', hh, hp⟩
      | dir d cs =>
        rw [show walkEntry root (.dir d cs)
            = if startsWithDot d then []
              else filesAt (joinPath root d) cs ++ walkList (joinPath root d) cs from rfl]
        by_cases hh : startsWithDot d = true
        · rw [if_pos hh, List.nil_append, ih es' hsz root p]
          constructor
          · rintro ⟨d', cs', hm', hh', hp⟩
            exact ⟨d', cs', by simp [EntryList.toList, hm'], hh', hp⟩
          · rintro ⟨d', cs', hm', hh', hp⟩
            rw [show (EntryList.cons (.dir d cs) es').toList = Entry.dir d cs :: es'.toList
              from rfl] at hm'
            rcases List.mem_cons.mp hm' with he | hm''
            · rcases Entry.dir.inj he with ⟨rfl, rfl⟩
              exact absurd hh (by simp [hh'])
            · exact ⟨d', cs', hm'', hh', hp⟩
        · have hh' : startsWithDot d = false := by
            revert hh
            cases startsWithDot d <;> simp
          rw [if_neg hh]
          constructor
          · intro hp
            rcases List.mem_append.mp hp with hin | hout
            · exact ⟨d, cs, by simp [EntryList.toList], hh', hin⟩
            · rcases (ih es' hsz root p).mp hout with ⟨d', cs', hm', hd', hp'⟩
              exact ⟨d', cs', by simp [EntryList.toList, hm'], hd', hp'⟩
          · rintro ⟨d', cs', hm', hd', hp'⟩
            rw [show (EntryList.cons (.dir d cs) es').toList = Entry.dir d cs :: es'.toList
              from rfl] at hm'
            rcases List.mem_cons.mp hm' with he | hm''
            · rcases Entry.dir.inj he with ⟨rfl, rfl⟩
              exact List.mem_append_left _ hp'
            · exact List.mem_append_right _
                ((ih es' hsz root p).mpr ⟨d', cs', hm'', hd', hp'⟩)

theorem mem_parseDir : ∀ N es, entryListSize es ≤ N → ∀ root p,
    (p ∈ parseDir root es ↔ Reach root es p) := by
  intro N
  induction N with
  | zero =>
    intro es hle
    have := entryListSize_pos es
    omega
  | succ N ih =>
    intro es hle root p
    constructor
    · intro hp
      rcases List.mem_append.mp hp with hf | hw
      · rcases (mem_filesAt (entryListSize es) es le_rfl root p).mp hf with ⟨n, hm, hs, rfl⟩
        exact Reach.here root es n hm hs
      · rcases (mem_walkList (entryListSize es) es le_rfl root p).mp hw
          with ⟨d, cs, hm, hh, hp'⟩
        have hcs : entryListSize cs ≤ N := by
          have := dir_mem_size (entryListSize es) es le_rfl d cs hm
          omega
        exact Reach.deeper root es d cs p hm hh ((ih cs hcs _ p).mp hp')
    · intro hr
      cases hr with
      | here _ _ n hm hs =>
        exact List.mem_append_left _
          ((mem_filesAt (entryListSize es) es le_rfl root _).mpr ⟨n, hm, hs, rfl⟩)
      | deeper _ _ d cs _ hm hh hr' =>
        have hcs : entryListSize cs ≤ N := by
          have := dir_mem_size (entryListSize es) es le_rfl d cs hm
          omega
        exact List.mem_append_right _
          ((mem_walkList (entryListSize es) es le_rfl root p).mpr
            ⟨d, cs, hm, hh, (ih cs hcs _ p).mpr hr'⟩)

/-! ## Extensions, dispatch and the ingestion loop -/

theorem bool_eq_false {b : Bool} (h : ¬ b = true) : b = false := by
  revert h
  cases b <;> simp

theorem supportedExt_append {x n : List Char} (h : supportedExt n = true) :
    supportedExt (x ++ n) = true := by
  have mono : ∀ e : List Char, e.isSuffixOf n = true → e.isSuffixOf (x ++ n) = true := by
    intro e he
    rw [List.isSuffixOf_iff_suffix] at he ⊢
    exact he.trans (List.suffix_append _ _)
  simp only [supportedExt, Bool.or_eq_true] at h ⊢
  rcases h with ((h | h) | h) | h
  · exact Or.inl (Or.inl (Or.inl (mono _ h)))
  · exact Or.inl (Or.inl (Or.inr (mono _ h)))
  · exact Or.inl (Or.inr (mono _ h))
  · exact Or.inr (mono _ h)

theorem reach_supported {root : List Char} {es : EntryList} {p : List Char}
    (hr : Reach root es p) : supportedExt p = true := by
  induction hr with
  | here root es n hm hs =>
    rw [show joinPath root n = (root ++ ['/']) ++ n from by simp [joinPath]]
    exact supportedExt_append hs
  | deeper root es d cs p hm hh hr' ih => exact ih

theorem suffix_getLast {e file : List Char} {c : Char} (he : e.getLast? = some c)
    (h : e.isSuffixOf file = true) : file.getLast? = some c := by
  rcases List.isSuffixOf_iff_suffix.mp h with ⟨pre, hpre⟩
  have hne : e ≠ [] := by
    intro hnil
    rw [hnil] at he
    simp at he
  rw [← hpre, List.getLast?_append_of_ne_nil pre hne, he]

theorem suffix_excl {e1 e2 file : List Char} {c1 c2 : Char} (h1 : e1.getLast? = some c1)
    (h2 : e2.getLast? = some c2) (hne : c1 ≠ c2) (hs1 : e1.isSuffixOf file = true) :
    e2.isSuffixOf file = false := by
  rcases hb : e2.isSuffixOf file with _ | _
  · rfl
  · exfalso
    have ha := suffix_getLast h1 hs1
    have hb' := suffix_getLast h2 hb
    rw [ha] at hb'
    exact hne (Option.some.inj hb')

theorem parseFile_pdf (env : ExtractEnv) {file : List Char}
    (h : pdfExt.isSuffixOf file = true) :
    parseFile env file = (parsePDF env file).mapError ParseErr.extractorFail := by
  unfold parseFile
  rw [if_pos h]

theorem parseFile_docx (env : ExtractEnv) {file : List Char}
    (h : docxExt.isSuffixOf file = true) :
    parseFile env file = (parseDOCX env file).mapError ParseErr.extractorFail := by
  have h1 : pdfExt.isSuffixOf file = false := suffix_excl
    (show docxExt.getLast? = some 'x' from rfl) (show pdfExt.getLast? = some 'f' from rfl)
    (by decide) h
  unfold parseFile
  rw [if_neg (by simp [h1]), if_pos h]

theorem parseFile_txt (env : ExtractEnv) {file : List Char}
    (h : txtExt.isSuffixOf file = true) :
    parseFile env file = (parseTXT env file).mapError ParseErr.extractorFail := by
  have h1 : pdfExt.isSuffixOf file = false := suffix_excl
    (show txtExt.getLast? = some 't' from rfl) (show pdfExt.getLast? = some 'f' from rfl)
    (by decide) h
  have h2 : docxExt.isSuffixOf file = false := suffix_excl
    (show txtExt.getLast? = some 't' from rfl) (show docxExt.getLast? = some 'x' from rfl)
    (by decide) h
  unfold parseFile
  rw [if_neg (by simp [h1]), if_neg (by simp [h2]), if_pos h]

theorem parseFile_md (env : ExtractEnv) {file : List Char}
    (h : mdExt.isSuffixOf file = true) :
    parseFile env file = (parseMD env file).mapError ParseErr.extractorFail := by
  have h1 : pdfExt.isSuffixOf file = false := suffix_excl
    (show mdExt.getLast? = some 'd' from rfl) (show pdfExt.getLast? = some 'f' from rfl)
    (by decide) h
  have h2 : docxExt.isSuffixOf file = false := suffix_excl
    (show mdExt.getLast? = some 'd' from rfl) (show docxExt.getLast? = some 'x' from rfl)
    (by decide) h
  have h3 : txtExt.isSuffixOf file = false := suffix_excl
    (show mdExt.getLast? = some 'd' from rfl) (show txtExt.getLast? = some 't' from rfl)
    (by decide) h
  unfold parseFile
  rw [if_neg (by simp [h1]), if_neg (by simp [h2]), if_neg (by simp [h3]), if_pos h]

theorem parseFile_unsup (env : ExtractEnv) {file : List Char}
    (h : supportedExt file = false) :
    parseFile env file = .error (.unsupported (unsupportedPrefix ++ file)) := by
  simp only [supportedExt, Bool.or_eq_false_iff] at h
  obtain ⟨⟨⟨h1, h2⟩, h3⟩, h4⟩ := h
  unfold parseFile
  rw [if_neg (by simp [h1]), if_neg (by simp [h2]), if_neg (by simp [h3]),
    if_neg (by simp [h4])]

theorem parseFile_not_unsup (env : ExtractEnv) {file : List Char}
    (h : supportedExt file = true) :
    ∀ m, parseFile env file ≠ .error (.unsupported m) := by
  intro m
  simp only [supportedExt, Bool.or_eq_true] at h
  rcases h with ((h | h) | h) | h
  · rw [parseFile_pdf env h]
    rcases parsePDF env file with msg | v <;> simp [Except.mapError]
  · rw [parseFile_docx env h]
    rcases parseDOCX env file with msg | v <;> simp [Except.mapError]
  · rw [parseFile_txt env h]
    rcases parseTXT env file with msg | v <;> simp [Except.mapError]
  · rw [parseFile_md env h]
    rcases parseMD env file with msg | v <;> simp [Except.mapError]

theorem parseFile_unsupported_iff (env : ExtractEnv) (file : List Char) :
    (∃ m, parseFile env file = .error (.unsupported m)) ↔ supportedExt file = false := by
  constructor
  · rintro ⟨m, hm⟩
    rcases hs : supportedExt file with _ | _
    · rfl
    · exact absurd hm (parseFile_not_unsup env hs m)
  · intro h
    exact ⟨unsupportedPrefix ++ file, parseFile_unsup env h⟩

/-! ## Lemmas about the store adapter and the ingestion loop -/

theorem search_embeddings_noclient {e : Embeddings} (h : e.db_client = none)
    (q : List Char) (k : Nat) (c : List Char) : search_embeddings e q k c = .ok ([], []) := by
  unfold search_embeddings
  rw [h]

theorem search_embeddings_client {e : Embeddings} {client : MilvusClient}
    (h : e.db_client = some client) {q : List Char} {qvs : List (List Float)}
    (henc : e.encode [q] = .ok qvs) (k : Nat) (c : List Char) :
    search_embeddings e q k c = .ok
      ([.loadCollection c, .search (searchRequestOf c)],
        (client.searchResult (searchRequestOf c) (qvs.headD [])).dedup) := by
  unfold search_embeddings get_embeddings
  rw [h, henc]
  rfl

theorem save_embeddings_noclient {e : Embeddings} (h : e.db_client = none)
    (embs : List (List Float)) (f c : List Char) : save_embeddings e embs f c = [] := by
  unfold save_embeddings
  rw [h]

theorem embedFiles_cons_eq (env : ExtractEnv) (e : Embeddings) (f : List Char)
    (rest : List (List Char)) :
    embedFiles env e (f :: rest) =
      (perFile env e f).bind fun tr =>
        (embedFiles env e rest).map fun trs => tr ++ trs := by
  show (perFile env e f).bind _ = _
  rcases perFile env e f with m | tr
  · rfl
  · show (embedFiles env e rest).bind _ = (embedFiles env e rest).map _
    rcases embedFiles env e rest with m | trs <;> rfl

theorem embedFiles_eq_mapM (env : ExtractEnv) (e : Embeddings) :
    ∀ files, embedFiles env e files = (files.mapM (perFile env e)).map List.flatten := by
  intro files
  induction files with
  | nil => rfl
  | cons f rest ih =>
    rw [embedFiles_cons_eq, List.mapM_cons, ih]
    rcases hp : perFile env e f with m | tr
    · rfl
    · rcases hx : List.mapM (perFile env e) rest with m | trs <;> rfl

theorem embedFiles_error_head {env : ExtractEnv} {e : Embeddings} {f : List Char}
    {m : IngestErr} (h : perFile env e f = .error m) (rest : List (List Char)) :
    embedFiles env e (f :: rest) = .error m := by
  rw [embedFiles_cons_eq, h]
  rfl

theorem embedFiles_abort {env : ExtractEnv} {e : Embeddings} {f : List Char}
    {m : IngestErr} (h : perFile env e f = .error m) :
    ∀ files1 files2 files2',
      embedFiles env e (files1 ++ f :: files2) = embedFiles env e (files1 ++ f :: files2') := by
  intro files1
  induction files1 with
  | nil =>
    intro f2 f2'
    rw [List.nil_append, List.nil_append, embedFiles_error_head h, embedFiles_error_head h]
  | cons c fs ih =>
    intro f2 f2'
    rw [List.cons_append, List.cons_append, embedFiles_cons_eq, embedFiles_cons_eq, ih f2 f2']

/-! ## The claims -/

/-- Claim C1: for every input string, extractParagraphs returns, in order,
exactly the segments obtained by splitting the string on runs of whitespace
containing at least one blank line (two or more consecutive line breaks
with optional interleaved whitespace), each trimmed of leading and trailing
whitespace, with segments empty after trimming discarded; no returned entry
is empty or whitespace-only, and an input consisting only of whitespace
yields the empty sequence. -/
theorem claim_C1 (s : List Char) :
    extractParagraphs s = specParagraphs s ∧
    (∀ p, p ∈ extractParagraphs s → p ≠ [] ∧ ∃ c ∈ p, isSpace c = false) ∧
    ((∀ c ∈ s, isSpace c = true) → extractParagraphs s = []) :=
  ⟨extractParagraphs_eq_specParagraphs s,
   fun _ hp => extractParagraphs_mem hp,
   fun h => extractParagraphs_of_all_ws h⟩

/-- Witness for claim C1 at concrete inputs. -/
theorem claim_C1_witness :
    ((['a'] : List Char) ≠ [] ∧ ∃ c ∈ (['a'] : List Char), isSpace c = false) ∧
    extractParagraphs [' ', '\n', '\n', '\t'] = [] :=
  ⟨(claim_C1 ['a', '\n', '\n', ' ', 'b']).2.1 ['a'] (by decide),
   (claim_C1 [' ', '\n', '\n', '\t']).2.2 (by decide)⟩

/-- Claim C2: extractParagraphs is idempotent under re-segmentation:
joining the output paragraphs with a blank-line separator and re-running
extractParagraphs reproduces the same paragraph sequence. -/
theorem claim_C2 (s : List Char) :
    extractParagraphs (joinBlank (extractParagraphs s)) = extractParagraphs s :=
  extract_joinBlank s

/-- Counterexample to claim C3 as stated: a fenced code block (other
Markdown syntax that the claim says passes through unchanged) is altered by
the Markdown stripping, because its backtick fences are consumed pairwise. -/
theorem claim_C3_counterexample :
    stripMD ['`', '`', '`', '\n', 'x', '\n', '`', '`', '`']
      ≠ ['`', '`', '`', '\n', 'x', '\n', '`', '`', '`'] := by decide

/-- Claim C3 (amended): the Markdown stripping applied by the .md extractor
is the identity on any text containing no asterisks and no backticks (in
particular headers, links and lists written without those characters pass
through unchanged), and maps bold, italic and inline-code wrapped texts to
the wrapped text; Markdown constructs that contain asterisks or backticks,
such as fenced code blocks, are however also rewritten. -/
theorem claim_C3_amended :
    (∀ s : List Char, '*' ∉ s → '`' ∉ s → stripMD s = s) ∧
    (∀ t : List Char, t ≠ [] → '*' ∉ t → '`' ∉ t → '\n' ∉ t →
      stripMD (['*', '*'] ++ (t ++ ['*', '*'])) = t ∧
      stripMD (['*'] ++ (t ++ ['*'])) = t ∧
      stripMD (['`'] ++ (t ++ ['`'])) = t) := by
  constructor
  · intro s h1 h2
    unfold stripMD
    rw [rsub_id_of_head_notin rfl h1, rsub_id_of_head_notin rfl h1,
      rsub_id_of_head_notin rfl h2]
  · intro t hne hst hbt hnl
    have ht : ∀ c ∈ t, c ≠ '\n' ∧ c ≠ '*' :=
      fun c hc => ⟨fun e => hnl (e ▸ hc), fun e => hst (e ▸ hc)⟩
    have ht' : ∀ c ∈ t, c ≠ '\n' ∧ c ≠ '`' :=
      fun c hc => ⟨fun e => hnl (e ▸ hc), fun e => hbt (e ▸ hc)⟩
    refine ⟨?_, ?_, ?_⟩
    · unfold stripMD
      rw [rsub_wrap (by simp) ht, rsub_id_of_head_notin rfl hst,
        rsub_id_of_head_notin rfl hbt]
    · unfold stripMD
      show rsub ['`'] ['`'] (rsub ['*'] ['*']
        (rsub ['*', '*'] ['*', '*'] ('*' :: (t ++ ['*'])))) = t
      rw [rsub_star2_id_italic hst hne]
      rw [show ('*' :: (t ++ ['*'])) = ['*'] ++ (t ++ ['*']) from rfl]
      rw [rsub_wrap (by simp) ht, rsub_id_of_head_notin rfl hbt]
    · have hstar : '*' ∉ ('`' :: (t ++ ['`'])) := by
        intro hm
        rcases List.mem_cons.mp hm with he | hm'
        · exact absurd he (by decide)
        · rcases List.mem_append.mp hm' with h | h
          · exact hst h
          · exact absurd h (by decide)
      unfold stripMD
      show rsub ['`'] ['`'] (rsub ['*'] ['*']
        (rsub ['*', '*'] ['*', '*'] ('`' :: (t ++ ['`'])))) = t
      rw [rsub_id_of_head_notin rfl hstar, rsub_id_of_head_notin rfl hstar]
      rw [show ('`' :: (t ++ ['`'])) = ['`'] ++ (t ++ ['`']) from rfl]
      exact rsub_wrap (by simp) ht'

/-- Witness for the amended claim C3 at concrete inputs. -/
theorem claim_C3_witness :
    stripMD ['#', ' ', 'T'] = ['#', ' ', 'T'] ∧
    stripMD (['*', '*'] ++ ((['x'] : List Char) ++ ['*', '*'])) = ['x'] :=
  ⟨claim_C3_amended.1 ['#', ' ', 'T'] (by decide) (by decide),
   (claim_C3_amended.2 ['x'] (by decide) (by decide) (by decide) (by decide)).1⟩

/-- Claim C4: for every root path, parseDir returns exactly those file
paths reachable by recursive traversal that does not descend into any
subdirectory whose name starts with a dot and whose extension is a
case-sensitive suffix match of one of the four supported extensions; in
particular a file below a hidden subdirectory, which has no whole traversal
chain avoiding hidden directories, is not returned. -/
theorem claim_C4 (root : List Char) (es : EntryList) (p : List Char) :
    p ∈ parseDir root es ↔ Reach root es p :=
  mem_parseDir (entryListSize es) es le_rfl root p

/-- Claim C5: parseFile raises the unsupported-file-type ValueError, whose
message names the offending path, exactly when the path ends with none of
the four supported extensions; for a supported extension it dispatches to
the extractor for that extension. -/
theorem claim_C5 (env : ExtractEnv) (file : List Char) :
    ((∃ m, parseFile env file = .error (.unsupported m)) ↔ supportedExt file = false) ∧
    (supportedExt file = false →
      parseFile env file = .error (.unsupported (unsupportedPrefix ++ file))) ∧
    (pdfExt.isSuffixOf file = true →
      parseFile env file = (parsePDF env file).mapError ParseErr.extractorFail) ∧
    (docxExt.isSuffixOf file = true →
      parseFile env file = (parseDOCX env file).mapError ParseErr.extractorFail) ∧
    (txtExt.isSuffixOf file = true →
      parseFile env file = (parseTXT env file).mapError ParseErr.extractorFail) ∧
    (mdExt.isSuffixOf file = true →
      parseFile env file = (parseMD env file).mapError ParseErr.extractorFail) :=
  ⟨parseFile_unsupported_iff env file, fun h => parseFile_unsup env h,
   fun h => parseFile_pdf env h, fun h => parseFile_docx env h,
   fun h => parseFile_txt env h, fun h => parseFile_md env h⟩

/-- Witness for claim C5 at concrete inputs. -/
theorem claim_C5_witness :
    parseFile ⟨fun _ => .ok [], fun _ => .ok [], fun f => .ok f⟩ ['a', '.', 'p', 'y']
      = .error (.unsupported (unsupportedPrefix ++ ['a', '.', 'p', 'y'])) ∧
    parseFile ⟨fun _ => .ok [], fun _ => .ok [], fun f => .ok f⟩ ['a', '.', 'm', 'd']
      = (parseMD ⟨fun _ => .ok [], fun _ => .ok [], fun f => .ok f⟩
          ['a', '.', 'm', 'd']).mapError ParseErr.extractorFail :=
  ⟨(claim_C5 ⟨fun _ => .ok [], fun _ => .ok [], fun f => .ok f⟩ ['a', '.', 'p', 'y']).2.1
      (by decide),
   (claim_C5 ⟨fun _ => .ok [], fun _ => .ok [], fun f => .ok f⟩ ['a', '.', 'm', 'd']).2.2.2.2.2
      (by decide)⟩

/-- Claim C6: search_embeddings issues the store search with a fixed
result limit of five that does not depend on the top_k argument (indeed the
whole call ignores top_k), over the embedding field under the L2 metric,
requesting only the file_name output field. -/
theorem claim_C6 (e : Embeddings) (q : List Char) (c : List Char) :
    (∀ k k', search_embeddings e q k c = search_embeddings e q k' c) ∧
    (searchRequestOf c).limit = 5 ∧
    (searchRequestOf c).annsField = embeddingField ∧
    (searchRequestOf c).metricType = l2Metric ∧
    (searchRequestOf c).outputFields = [fileNameField] ∧
    (∀ client qvs k, e.db_client = some client → e.encode [q] = .ok qvs →
      search_embeddings e q k c = .ok
        ([.loadCollection c, .search (searchRequestOf c)],
          (client.searchResult (searchRequestOf c) (qvs.headD [])).dedup)) :=
  ⟨fun _ _ => rfl, rfl, rfl, rfl, rfl,
   fun _ qvs k hdb henc => search_embeddings_client hdb henc k c⟩

/-- Witness for claim C6 at a concrete store and query. -/
theorem claim_C6_witness :
    search_embeddings ⟨some ⟨fun _ _ => [['h', 'i']]⟩, fun _ => .ok [[]]⟩ ['q'] 4 embCollection
      = .ok ([.loadCollection embCollection, .search (searchRequestOf embCollection)],
          ((MilvusClient.mk fun _ _ => [['h', 'i']]).searchResult
            (searchRequestOf embCollection) (([[]] : List (List Float)).headD [])).dedup) :=
  (claim_C6 ⟨some ⟨fun _ _ => [['h', 'i']]⟩, fun _ => .ok [[]]⟩ ['q'] embCollection).2.2.2.2.2
    ⟨fun _ _ => [['h', 'i']]⟩ [[]] 4 rfl rfl

/-- Claim C7: the list returned by search_embeddings contains pairwise
distinct filenames, with exactly the members of the store's hit list
(duplicate filenames collapse to one entry), so its length can only shrink
with respect to the hits returned for the fixed candidate count. -/
theorem claim_C7 (e : Embeddings) (q : List Char) (k : Nat) (c : List Char)
    (client : MilvusClient) (qvs : List (List Float))
    (hdb : e.db_client = some client) (henc : e.encode [q] = .ok qvs) :
    ∃ tr names, search_embeddings e q k c = .ok (tr, names) ∧ names.Nodup ∧
      (∀ x, x ∈ names ↔ x ∈ client.searchResult (searchRequestOf c) (qvs.headD [])) ∧
      names.length ≤ (client.searchResult (searchRequestOf c) (qvs.headD [])).length :=
  ⟨_, _, search_embeddings_client hdb henc k c, List.nodup_dedup _,
   fun _ => List.mem_dedup, (List.dedup_sublist _).length_le⟩

/-- Witness for claim C7 at a store returning duplicate filenames. -/
theorem claim_C7_witness :
    ∃ tr names,
      search_embeddings ⟨some ⟨fun _ _ => [['a'], ['a'], ['b']]⟩, fun _ => .ok [[]]⟩
          ['q'] 4 embCollection = .ok (tr, names) ∧ names.Nodup ∧
        (∀ x, x ∈ names ↔ x ∈ (MilvusClient.mk fun _ _ => [['a'], ['a'], ['b']]).searchResult
          (searchRequestOf embCollection) (([[]] : List (List Float)).headD [])) ∧
        names.length ≤ ((MilvusClient.mk fun _ _ => [['a'], ['a'], ['b']]).searchResult
          (searchRequestOf embCollection) (([[]] : List (List Float)).headD [])).length :=
  claim_C7 ⟨some ⟨fun _ _ => [['a'], ['a'], ['b']]⟩, fun _ => .ok [[]]⟩ ['q'] 4 embCollection
    ⟨fun _ _ => [['a'], ['a'], ['b']]⟩ [[]] rfl rfl

/-- Claim C8: when the Embeddings object was constructed without a store
connection, save_embeddings issues no store operation and search_embeddings
returns the empty list; both return normally rather than raising. -/
theorem claim_C8 (e : Embeddings) (h : e.db_client = none) :
    (∀ embs f c, save_embeddings e embs f c = []) ∧
    (∀ q k c, search_embeddings e q k c = .ok ([], [])) :=
  ⟨fun embs f c => save_embeddings_noclient h embs f c,
   fun q k c => search_embeddings_noclient h q k c⟩

/-- Witness for claim C8 at a concrete store-less Embeddings object. -/
theorem claim_C8_witness :
    save_embeddings ⟨none, fun _ => .ok []⟩ [] ['f'] embCollection = [] ∧
    search_embeddings ⟨none, fun _ => .ok []⟩ ['q'] 4 embCollection = .ok ([], []) :=
  ⟨(claim_C8 ⟨none, fun _ => .ok []⟩ rfl).1 [] ['f'] embCollection,
   (claim_C8 ⟨none, fun _ => .ok []⟩ rfl).2 ['q'] 4 embCollection⟩

/-- Claim C9: embedFiles processes its files strictly sequentially in list
order, concatenating per-file traces in order; for one file the loop body
extracts the text, segments it, embeds the paragraphs in one batch call and
issues one save under that file's path; an extraction or embedding failure
is not caught, so the result is that error and no later file contributes
anything (the remaining list is irrelevant). -/
theorem claim_C9 (env : ExtractEnv) (e : Embeddings) :
    (∀ files, embedFiles env e files = (files.mapM (perFile env e)).map List.flatten) ∧
    (∀ file text embs, parseFile env file = .ok text →
      e.encode (extractParagraphs text) = .ok embs →
      perFile env e file = .ok (save_embeddings e embs file embCollection)) ∧
    (∀ f m, perFile env e f = .error m →
      (∀ rest, embedFiles env e (f :: rest) = .error m) ∧
      (∀ files1 files2 files2',
        embedFiles env e (files1 ++ f :: files2)
          = embedFiles env e (files1 ++ f :: files2'))) := by
  refine ⟨embedFiles_eq_mapM env e, ?_, ?_⟩
  · intro file text embs hp he
    unfold perFile get_embeddings
    rw [hp]
    show ((e.encode (extractParagraphs text)).mapError IngestErr.embed).bind _ = _
    rw [he]
    rfl
  · intro f m h
    exact ⟨fun rest => embedFiles_error_head h rest, embedFiles_abort h⟩

/-- Witness for claim C9 at a concrete environment whose PDF decoder
fails. -/
theorem claim_C9_witness :
    perFile ⟨fun _ => .error ['b'], fun _ => .ok [], fun f => .ok f⟩ ⟨none, fun _ => .ok []⟩
        ['a', '.', 't', 'x', 't']
      = .ok (save_embeddings ⟨none, fun _ => .ok []⟩ [] ['a', '.', 't', 'x', 't'] embCollection) ∧
    embedFiles ⟨fun _ => .error ['b'], fun _ => .ok [], fun f => .ok f⟩ ⟨none, fun _ => .ok []⟩
        ([['a', '.', 't', 'x', 't']] ++ ['x', '.', 'p', 'd', 'f'] :: [['c', '.', 'm', 'd']])
      = embedFiles ⟨fun _ => .error ['b'], fun _ => .ok [], fun f => .ok f⟩ ⟨none, fun _ => .ok []⟩
        ([['a', '.', 't', 'x', 't']] ++ ['x', '.', 'p', 'd', 'f'] :: []) :=
  ⟨(claim_C9 ⟨fun _ => .error ['b'], fun _ => .ok [], fun f => .ok f⟩
      ⟨none, fun _ => .ok []⟩).2.1 ['a', '.', 't', 'x', 't'] ['a', '.', 't', 'x', 't'] [] rfl rfl,
   ((claim_C9 ⟨fun _ => .error ['b'], fun _ => .ok [], fun f => .ok f⟩
      ⟨none, fun _ => .ok []⟩).2.2 ['x', '.', 'p', 'd', 'f']
      (.parse (.extractorFail ['b'])) rfl).2
      [['a', '.', 't', 'x', 't']] [['c', '.', 'm', 'd']] []⟩

/-- Claim C10: every path returned by parseDir has a supported extension,
so parseFile accepts it and never raises the unsupported-file-type error:
the walker's suffix-based inclusion condition implies the dispatcher's
support condition. -/
theorem claim_C10 (root : List Char) (es : EntryList) (p : List Char) (env : ExtractEnv)
    (hp : p ∈ parseDir root es) :
    supportedExt p = true ∧ ∀ m, parseFile env p ≠ .error (.unsupported m) := by
  have hr : Reach root es p := (mem_parseDir (entryListSize es) es le_rfl root p).mp hp
  have hs := reach_supported hr
  exact ⟨hs, parseFile_not_unsup env hs⟩

/-- Witness for claim C10 at a concrete directory tree. -/
theorem claim_C10_witness :
    supportedExt ['r', '/', 'a', '.', 'm', 'd'] = true ∧
    ∀ m, parseFile ⟨fun _ => .ok [], fun _ => .ok [], fun f => .ok f⟩ ['r', '/', 'a', '.', 'm', 'd']
      ≠ .error (.unsupported m) :=
  claim_C10 ['r'] (.cons (.file ['a', '.', 'm', 'd']) .nil) ['r', '/', 'a', '.', 'm', 'd']
    ⟨fun _ => .ok [], fun _ => .ok [], fun f => .ok f⟩ (by decide)

end DeepFind
